import Mathlib

/-!
Verification of the AtomSpace hypergraph store, truth-value algebra and
pattern matcher of the `gnc::opencog` subsystem
(`src/libgnucash/opencog/atomspace/{atom,atomspace,truth_value}.hpp` and
`src/libgnucash/opencog/pattern/pattern_match.hpp`).

The C++ code is shallowly embedded:

* An `Atom` is a finite tree mirroring the object graph reachable from a
  C++ `Handle` (`std::shared_ptr<Atom>`): a `Node` carries an immutable
  type, uuid and name; a `Link` carries an immutable type, uuid and an
  ordered outgoing sequence of handles, each either null or another atom.
  Handles are `Option Atom`, with `none` for the null pointer.
* Structural equality (`structEq`) mirrors `Node::operator==` /
  `Link::operator==`: uuids are ignored, names and outgoing sequences are
  compared recursively, with the null-pointer cases of the source.
* The `AtomSpace` record carries the four indices of the class
  (`m_atoms`, `m_by_type`, `m_by_uuid`, `m_incoming`) as lists and
  association lists keyed as in the source (the incoming index is keyed
  by uuid), plus the global atomic uuid counter threaded through state.
  `std::unordered_set` buckets are lists whose membership test uses
  `structEq`, matching the `AtomHash`/`AtomEqual` functors.
* Truth values are pairs of rationals; the `double` arithmetic of the
  source is modelled as exact real (rational) arithmetic.  `count`
  returns `Option ℚ`, `none` standing for the `+infinity` the source
  returns when confidence reaches 1.
-/

namespace GncOpencog

/-- `AtomTypes::ATOM` (atom_types.hpp). -/
def ATOM_T : Nat := 0

/-- `AtomTypes::CONCEPT_NODE` (atom_types.hpp). -/
def CONCEPT_NODE : Nat := 10

/-- `AtomTypes::VARIABLE_NODE` (atom_types.hpp). -/
def VARIABLE_NODE : Nat := 13

/-- `AtomTypes::INHERITANCE_LINK` (atom_types.hpp). -/
def INHERITANCE_LINK : Nat := 220

/-- The object graph reachable from a non-null C++ `Handle`.  A `node`
mirrors `class Node` (type, uuid, name), a `link` mirrors `class Link`
(type, uuid, outgoing sequence of handles, possibly null). -/
inductive Atom where
  | node (ty : Nat) (uuid : Nat) (name : List Char)
  | link (ty : Nat) (uuid : Nat) (out : List (Option Atom))

mutual

/-- Full (pointer-graph) equality of two atoms, uuid included; used only
to give `Atom` decidable equality in the meta-theory. -/
def Atom.beq : Atom → Atom → Bool
  | .node t u n, .node t' u' n' => t == t' && u == u' && n == n'
  | .link t u o, .link t' u' o' => t == t' && u == u' && beqSeq o o'
  | _, _ => false

/-- Full equality on handles. -/
def beqOH : Option Atom → Option Atom → Bool
  | none, none => true
  | some a, some b => Atom.beq a b
  | _, _ => false

/-- Full equality on handle sequences. -/
def beqSeq : List (Option Atom) → List (Option Atom) → Bool
  | [], [] => true
  | a :: as, b :: bs => beqOH a b && beqSeq as bs
  | _, _ => false

end

mutual

theorem Atom.beq_iff : ∀ a b : Atom, Atom.beq a b = true ↔ a = b
  | .node t u n, .node t' u' n' => by simp [Atom.beq, and_assoc]
  | .link t u o, .link t' u' o' => by simp [Atom.beq, beqSeq_iff o o', and_assoc]
  | .node _ _ _, .link _ _ _ => by simp [Atom.beq]
  | .link _ _ _, .node _ _ _ => by simp [Atom.beq]

theorem beqOH_iff : ∀ a b : Option Atom, beqOH a b = true ↔ a = b
  | none, none => by simp [beqOH]
  | some a, some b => by simp [beqOH, Atom.beq_iff a b]
  | none, some _ => by simp [beqOH]
  | some _, none => by simp [beqOH]

theorem beqSeq_iff : ∀ a b : List (Option Atom), beqSeq a b = true ↔ a = b
  | [], [] => by simp [beqSeq]
  | a :: as, b :: bs => by simp [beqSeq, beqOH_iff a b, beqSeq_iff as bs]
  | [], _ :: _ => by simp [beqSeq]
  | _ :: _, [] => by simp [beqSeq]

end

instance : DecidableEq Atom := fun a b => decidable_of_iff _ (Atom.beq_iff a b)

/-- `Atom::type()`. -/
def Atom.ty : Atom → Nat
  | .node t _ _ => t
  | .link t _ _ => t

/-- `Atom::uuid()`. -/
def Atom.uuid : Atom → Nat
  | .node _ u _ => u
  | .link _ u _ => u

/-- `Atom::is_link()`. -/
def Atom.isLink : Atom → Bool
  | .node _ _ _ => false
  | .link _ _ _ => true

/-- `Atom::is_node()`. -/
def Atom.isNode : Atom → Bool
  | .node _ _ _ => true
  | .link _ _ _ => false

/-- `Atom::name()` — the empty string for links, as in `Link::name()`. -/
def Atom.nameOf : Atom → List Char
  | .node _ _ n => n
  | .link _ _ _ => []

/-- `Atom::outgoing()` — the empty sequence for nodes, as in
`Node::outgoing()`. -/
def Atom.out : Atom → List (Option Atom)
  | .node _ _ _ => []
  | .link _ _ o => o

/-- `Atom::arity()` — 0 for nodes, length of the outgoing sequence for
links. -/
def Atom.arity (a : Atom) : Nat := a.out.length

mutual

/-- `Node::operator==` / `Link::operator==`: structural equality, uuid
ignored; links compare type, arity and each outgoing position pairwise
(order-sensitive, recursive). -/
def structEq : Atom → Atom → Bool
  | .node t _ n, .node t' _ n' => t == t' && n == n'
  | .link t _ o, .link t' _ o' => t == t' && o.length == o'.length && structEqL o o'
  | _, _ => false

/-- Pairwise comparison of two outgoing sequences, following the loop of
`Link::operator==`: two null handles compare equal, a null and a non-null
handle compare unequal, two non-null handles compare structurally. -/
def structEqL : List (Option Atom) → List (Option Atom) → Bool
  | [], [] => true
  | a :: as, b :: bs => structEqH a b && structEqL as bs
  | _, _ => false

/-- Handle comparison used inside `Link::operator==`. -/
def structEqH : Option Atom → Option Atom → Bool
  | none, none => true
  | some a, some b => structEq a b
  | _, _ => false

end

mutual

theorem structEq_refl : ∀ a : Atom, structEq a a = true
  | .node t _ n => by simp [structEq]
  | .link t _ o => by simp [structEq, structEqL_refl o]

theorem structEqL_refl : ∀ l : List (Option Atom), structEqL l l = true
  | [] => by simp [structEqL]
  | a :: as => by simp [structEqL, structEqH_refl a, structEqL_refl as]

theorem structEqH_refl : ∀ h : Option Atom, structEqH h h = true
  | none => by simp [structEqH]
  | some a => by simpa [structEqH] using structEq_refl a

end

mutual

theorem structEq_symm : ∀ a b : Atom, structEq a b = structEq b a
  | .node t _ n, .node t' _ n' => by
      show (t == t' && n == n') = (t' == t && n' == n)
      rw [Bool.eq_iff_iff]
      simp only [Bool.and_eq_true, beq_iff_eq]
      constructor <;> rintro ⟨h1, h2⟩ <;> exact ⟨h1.symm, h2.symm⟩
  | .link t u o, .link t' u' o' => by
      show (t == t' && o.length == o'.length && structEqL o o') =
        (t' == t && o'.length == o.length && structEqL o' o)
      rw [Bool.eq_iff_iff]
      simp only [Bool.and_eq_true, beq_iff_eq, structEqL_symm o o']
      constructor <;> rintro ⟨⟨h1, h2⟩, h3⟩ <;> exact ⟨⟨h1.symm, h2.symm⟩, h3⟩
  | .node _ _ _, .link _ _ _ => by simp [structEq]
  | .link _ _ _, .node _ _ _ => by simp [structEq]

theorem structEqL_symm : ∀ a b : List (Option Atom), structEqL a b = structEqL b a
  | [], [] => rfl
  | a :: as, b :: bs => by simp [structEqL, structEqH_symm a b, structEqL_symm as bs]
  | [], _ :: _ => rfl
  | _ :: _, [] => rfl

theorem structEqH_symm : ∀ a b : Option Atom, structEqH a b = structEqH b a
  | none, none => rfl
  | some a, some b => by simpa [structEqH] using structEq_symm a b
  | none, some _ => rfl
  | some _, none => rfl

end

mutual

/-- Height of the object tree below an atom; used to show that an atom
can never be structurally equal to one of the members of its own
outgoing sequence. -/
def adepth : Atom → Nat
  | .node _ _ _ => 1
  | .link _ _ o => 1 + ldepth o

/-- Height of a handle sequence. -/
def ldepth : List (Option Atom) → Nat
  | [] => 0
  | none :: t => ldepth t
  | some a :: t => max (adepth a) (ldepth t)

end

mutual

theorem structEq_adepth : ∀ a b : Atom, structEq a b = true → adepth a = adepth b
  | .node _ _ _, .node _ _ _ => fun _ => rfl
  | .link t u o, .link t' u' o' => fun h => by
      have h' : structEqL o o' = true := by
        simp only [structEq, Bool.and_eq_true] at h
        exact h.2
      show 1 + ldepth o = 1 + ldepth o'
      rw [structEqL_ldepth o o' h']
  | .node _ _ _, .link _ _ _ => fun h => by simp [structEq] at h
  | .link _ _ _, .node _ _ _ => fun h => by simp [structEq] at h

theorem structEqL_ldepth : ∀ a b : List (Option Atom), structEqL a b = true →
    ldepth a = ldepth b
  | [], [] => fun _ => rfl
  | none :: as, none :: bs => fun h => by
      have h' : structEqL as bs = true := by
        simp only [structEqL, structEqH, Bool.and_eq_true] at h
        exact h.2
      show ldepth as = ldepth bs
      exact structEqL_ldepth as bs h'
  | none :: as, some y :: bs => fun h => by
      simp [structEqL, structEqH] at h
  | some x :: as, none :: bs => fun h => by
      simp [structEqL, structEqH] at h
  | some x :: as, some y :: bs => fun h => by
      have h1 : structEq x y = true := by
        simp only [structEqL, structEqH, Bool.and_eq_true] at h
        exact h.1
      have h2 : structEqL as bs = true := by
        simp only [structEqL, structEqH, Bool.and_eq_true] at h
        exact h.2
      show max (adepth x) (ldepth as) = max (adepth y) (ldepth bs)
      rw [structEq_adepth x y h1, structEqL_ldepth as bs h2]
  | [], _ :: _ => fun h => by simp [structEqL] at h
  | _ :: _, [] => fun h => by simp [structEqL] at h

end

/-- A handle in a sequence bounds the sequence height from below. -/
theorem adepth_le_ldepth {o : List (Option Atom)} {y : Atom}
    (hy : some y ∈ o) : adepth y ≤ ldepth o := by
  induction o with
  | nil => cases hy
  | cons a as ih =>
      rw [List.mem_cons] at hy
      rcases hy with h | h
      · rw [← h]
        simp [ldepth, le_max_iff]
      · cases a with
        | none => simpa [ldepth] using ih h
        | some x => simp only [ldepth, le_max_iff]; right; exact ih h

/-- A member of a link's outgoing sequence is never structurally equal to
the link itself (its tree is strictly lower). -/
theorem structEq_out_false {t u : Nat} {o : List (Option Atom)} {y : Atom}
    (hy : some y ∈ o) : structEq y (.link t u o) = false := by
  by_contra h
  have h' : structEq y (.link t u o) = true := by
    revert h; cases structEq y (.link t u o) <;> simp
  have hd := structEq_adepth _ _ h'
  have hle := adepth_le_ldepth hy
  rw [hd] at hle
  simp only [adepth] at hle
  omega

/-! ### The AtomSpace store (atomspace.hpp)

`m_atoms` is an `unordered_set<Handle, AtomHash, AtomEqual>`: membership,
lookup and erasure all work up to `structEq`.  `m_by_type` and
`m_incoming` are hash maps from a key to such a set; `operator[]`
default-constructs an empty bucket when the key is absent.  `m_by_uuid`
maps a uuid to a handle. -/

/-- `m_atoms.find(a)` — the canonical stored handle structurally equal to
`a`, if any. -/
def sfind (l : List Atom) (a : Atom) : Option Atom :=
  l.find? (fun x => structEq x a)

/-- `set.insert(a)` on an `AtomEqual`-keyed set: a no-op when a
structurally equal element is already present. -/
def sinsert (l : List Atom) (a : Atom) : List Atom :=
  if l.any (fun x => structEq x a) then l else l ++ [a]

/-- `set.erase(a)` on an `AtomEqual`-keyed set: removes the (at most one)
structurally equal element. -/
def serase (l : List Atom) (a : Atom) : List Atom :=
  l.eraseP (fun x => structEq x a)

/-- `map[k]` access followed by an update `f` of the bucket, as in
`m_by_type[t].insert(a)` or `m_incoming[u].erase(a)`: `operator[]`
default-constructs an empty bucket when the key is absent. -/
def bucketMod (m : List (Nat × List Atom)) (k : Nat) (f : List Atom → List Atom) :
    List (Nat × List Atom) :=
  match m with
  | [] => [(k, f [])]
  | (k', b) :: rest => if k' = k then (k', f b) :: rest else (k', b) :: bucketMod rest k f

/-- Bucket lookup (`map.find(k)`). -/
def mlookup (m : List (Nat × List Atom)) (k : Nat) : Option (List Atom) :=
  match m with
  | [] => none
  | (k', b) :: rest => if k' = k then some b else mlookup rest k

/-- `m_by_uuid[u] = a`. -/
def uuidSet (m : List (Nat × Atom)) (k : Nat) (a : Atom) : List (Nat × Atom) :=
  match m with
  | [] => [(k, a)]
  | (k', x) :: rest => if k' = k then (k, a) :: rest else (k', x) :: uuidSet rest k a

/-- `m_by_uuid.find(u)`. -/
def uuidLookup (m : List (Nat × Atom)) (k : Nat) : Option Atom :=
  match m with
  | [] => none
  | (k', x) :: rest => if k' = k then some x else uuidLookup rest k

/-- The four indices of `class AtomSpace`, plus the global atomic uuid
counter of `Atom::next_uuid()` threaded through the state. -/
structure AtomSpace where
  atoms : List Atom
  byType : List (Nat × List Atom)
  byUuid : List (Nat × Atom)
  incoming : List (Nat × List Atom)
  nextUuid : Nat
deriving DecidableEq

/-- A freshly constructed `AtomSpace` (uuid counter starts at 1 as in
`Atom::next_uuid()`). -/
def emptySpace : AtomSpace := ⟨[], [], [], [], 1⟩

/-- The loop in `add_atom` registering a freshly inserted link in the
incoming-set bucket of each non-null atom of its outgoing sequence,
keyed by the target's uuid. -/
def regTargets (a : Atom) : List (Option Atom) → List (Nat × List Atom) →
    List (Nat × List Atom)
  | [], m => m
  | none :: ts, m => regTargets a ts m
  | some t :: ts, m => regTargets a ts (bucketMod m t.uuid (fun b => sinsert b a))

/-- The loop in `remove_atom` erasing a link from the incoming-set bucket
of each non-null atom of its outgoing sequence. -/
def unregTargets (a : Atom) : List (Option Atom) → List (Nat × List Atom) →
    List (Nat × List Atom)
  | [], m => m
  | none :: ts, m => unregTargets a ts m
  | some t :: ts, m => unregTargets a ts (bucketMod m t.uuid (fun b => serase b a))

/-- `AtomSpace::add_atom`: null is a no-op returning null; a structurally
equal stored atom is returned unchanged (deduplication); otherwise the
atom is inserted into the primary set, the type index and the uuid index,
and — when it is a link — registered in the incoming bucket of every
non-null outgoing target. -/
def addAtom (h : Option Atom) (s : AtomSpace) : Option Atom × AtomSpace :=
  match h with
  | none => (none, s)
  | some a =>
    match sfind s.atoms a with
    | some c => (some c, s)
    | none =>
      (some a,
        { s with
          atoms := s.atoms ++ [a]
          byType := bucketMod s.byType a.ty (fun b => sinsert b a)
          byUuid := uuidSet s.byUuid a.uuid a
          incoming := if a.isLink then regTargets a a.out s.incoming else s.incoming })

/-- `AtomSpace::add_node`: constructs a fresh `Node` (consuming a uuid
from the global counter) and feeds it to `add_atom`. -/
def addNode (t : Nat) (n : List Char) (s : AtomSpace) : Option Atom × AtomSpace :=
  addAtom (some (.node t s.nextUuid n)) { s with nextUuid := s.nextUuid + 1 }

/-- `AtomSpace::add_link`: constructs a fresh `Link` (consuming a uuid)
and feeds it to `add_atom`. -/
def addLink (t : Nat) (o : List (Option Atom)) (s : AtomSpace) :
    Option Atom × AtomSpace :=
  addAtom (some (.link t s.nextUuid o)) { s with nextUuid := s.nextUuid + 1 }

/-- `AtomSpace::remove_atom`: false for null or a structurally absent
atom; otherwise erases the atom from the primary set, the type bucket of
the argument's type, the uuid index at the argument's uuid, and — when
the argument is a link — from the incoming bucket of every non-null
outgoing target.  Note that no incoming bucket keyed by the removed
atom's *own* uuid is touched. -/
def removeAtom (h : Option Atom) (s : AtomSpace) : Bool × AtomSpace :=
  match h with
  | none => (false, s)
  | some a =>
    if s.atoms.any (fun x => structEq x a) then
      (true,
        { s with
          atoms := serase s.atoms a
          byType := bucketMod s.byType a.ty (fun b => serase b a)
          byUuid := s.byUuid.eraseP (fun p => p.1 == a.uuid)
          incoming := if a.isLink then unregTargets a a.out s.incoming else s.incoming })
    else (false, s)

/-- `AtomSpace::get_incoming`: empty for null; otherwise the incoming
bucket keyed by the atom's uuid (empty when absent). -/
def getIncoming (h : Option Atom) (s : AtomSpace) : List Atom :=
  match h with
  | none => []
  | some a => (mlookup s.incoming a.uuid).getD []

/-- `AtomSpace::get_atoms_by_type` (exact type, no subtype expansion). -/
def getAtomsByType (t : Nat) (s : AtomSpace) : List Atom :=
  (mlookup s.byType t).getD []

/-- `AtomSpace::get_node`: canonical lookup by a transient `(type, name)`
template (the template's uuid is irrelevant to structural equality). -/
def getNode (t : Nat) (n : List Char) (s : AtomSpace) : Option Atom :=
  sfind s.atoms (.node t 0 n)

/-- `AtomSpace::size()`. -/
def size (s : AtomSpace) : Nat := s.atoms.length

/-- `AtomSpace::contains`. -/
def containsAtom (h : Option Atom) (s : AtomSpace) : Bool :=
  match h with
  | none => false
  | some a => s.atoms.any (fun x => structEq x a)

/-! ### The pattern matcher (pattern_match.hpp)

`match(pattern)` (the no-callback overload) runs `match_recursive` under
a callback that appends each produced binding map and always returns
`true`.  The embedding below models exactly that collect-all execution:
`matchRec` returns the list of binding maps passed to the callback, in
candidate-enumeration order, together with the boolean `match_recursive`
returns. -/

/-- Association-list lookup on string-keyed maps (`unordered_map::find`). -/
def alookup {α : Type} (m : List (List Char × α)) (v : List Char) : Option α :=
  match m with
  | [] => none
  | (n, x) :: rest => if n = v then some x else alookup rest v

/-- `map[k] = v` on string-keyed maps (insert or overwrite). -/
def aset {α : Type} (m : List (List Char × α)) (v : List Char) (x : α) :
    List (List Char × α) :=
  match m with
  | [] => [(v, x)]
  | (n, y) :: rest => if n = v then (n, x) :: rest else (n, y) :: aset rest v x

/-- `Bindings` — maps variable names to bound handles. -/
abbrev Bindings := List (List Char × Option Atom)

/-- `class Pattern`: named variables with a type constraint
(`m_variables`), a body template (`m_body`), and auxiliary clauses
(`m_clauses`, recorded but never joined with the body by
`match_recursive`). -/
structure Pattern where
  vars : List (List Char × Nat)
  body : Option Atom
  clauses : List (Option Atom)

/-- The test `pat->is_node() && pat->type() == VARIABLE_NODE` of
`match_recursive`, returning the variable's name when it passes. -/
def isVarNode : Option Atom → Option (List Char)
  | some (.node t _ n) => if t = VARIABLE_NODE then some n else none
  | _ => none

/-- The position-wise unification loop of the link case of
`match_recursive`: variable positions bind or check against the local
bindings, non-variable positions require exact structural equality, and
a null pattern or candidate position matches only a null counterpart.
Returns the extended local bindings on success.  (When a variable is
bound to a null handle and the candidate position is non-null the source
dereferences a null pointer; that branch, unreachable for candidates
drawn from the store, is modelled as a mismatch.) -/
def unifyOut : List (Option Atom) → List (Option Atom) → Bindings → Option Bindings
  | [], [], b => some b
  | po :: ps, co :: cs, b =>
    match isVarNode po with
    | some v =>
      match alookup b v with
      | some bound =>
        match co, bound with
        | some c, some bv => if structEq bv c then unifyOut ps cs b else none
        | _, _ => none
      | none => unifyOut ps cs (aset b v co)
    | none =>
      match po, co with
      | some pa, some ca => if structEq pa ca then unifyOut ps cs b else none
      | none, none => unifyOut ps cs b
      | _, _ => none
  | _, _, _ => none

/-- `PatternMatcher::match_recursive` under the collect-all callback of
`match(pattern)`: returns the binding maps handed to the callback (in
candidate order) and the boolean result of `match_recursive`. -/
def matchRec (s : AtomSpace) (p : Pattern) (pat : Option Atom) (b : Bindings) :
    List Bindings × Bool :=
  match pat with
  | none => ([], false)
  | some a =>
    match isVarNode (some a) with
    | some v =>
      if (alookup b v).isSome then ([], true)
      else
        let vt := (alookup p.vars v).getD ATOM_T
        let candidates := if vt = ATOM_T then s.atoms else getAtomsByType vt s
        (candidates.map (fun c => aset b v (some c)), true)
    | none =>
      if a.isNode then
        (if (getNode a.ty a.nameOf s).isSome then [b] else [], true)
      else
        let candidates := getAtomsByType a.ty s
        (candidates.filterMap (fun c =>
            if c.arity = a.arity then unifyOut a.out c.out b else none), true)

/-- `PatternMatcher::match(pattern)` — all bindings, via the always-true
collecting callback; an absent body yields no results. -/
def matchCollect (s : AtomSpace) (p : Pattern) : List Bindings :=
  match p.body with
  | none => []
  | some _ => (matchRec s p p.body []).1

/-- Substring test `name.find(sub) != npos` used by the `*sub*` branch of
`match_name`. -/
def hasSub (sub l : List Char) : Bool :=
  l.tails.any (fun t => sub.isPrefixOf t)

/-- `PatternMatcher::match_name`: simple wildcard matching with the four
forms `*`, `*sub*`, `*suffix`, `prefix*`, and exact comparison
otherwise. -/
def matchName (name pat : List Char) : Bool :=
  if pat = ['*'] then true
  else if pat = [] then name == ([] : List Char)
  else if pat.head? == some '*' && pat.getLast? == some '*' then
    hasSub ((pat.drop 1).dropLast) name
  else if pat.head? == some '*' then (pat.drop 1).isSuffixOf name
  else if pat.getLast? == some '*' then pat.dropLast.isPrefixOf name
  else name == pat

/-- `PatternMatcher::find_nodes`: all atoms of the type, filtered by the
name pattern unless it is the universal `"*"`. -/
def findNodes (t : Nat) (pat : List Char) (s : AtomSpace) : List Atom :=
  let atoms := getAtomsByType t s
  if pat = ['*'] then atoms
  else atoms.filter (fun a => a.isNode && matchName a.nameOf pat)

/-! ### The truth-value algebra (truth_value.hpp)

Strength and confidence are modelled as exact rationals (the source uses
`double`).  `count` returns `Option ℚ`: `none` is the `+infinity` the
source returns when the confidence reaches 1. -/

/-- `std::clamp(x, 0.0, 1.0)` applied by the `TruthValue` constructor
and setters. -/
def clamp01 (x : ℚ) : ℚ := if x < 0 then 0 else if 1 < x then 1 else x

/-- `class TruthValue` — a (strength, confidence) pair. -/
structure TruthValue where
  strength : ℚ
  confidence : ℚ
deriving DecidableEq

/-- The clamping two-argument constructor `TruthValue(strength, confidence)`. -/
def TruthValue.mk' (s c : ℚ) : TruthValue := ⟨clamp01 s, clamp01 c⟩

/-- The default constructor `TruthValue()` — strength 0, confidence 0. -/
def TruthValue.default' : TruthValue := ⟨0, 0⟩

/-- `TruthValue::DEFAULT_K`. -/
def DEFAULT_K : ℚ := 800

/-- `TruthValue::from_count`: confidence derived from an evidence count
as `count / (count + k)`. -/
def fromCount (s c : ℚ) (k : ℚ) : TruthValue := TruthValue.mk' s (c / (c + k))

/-- `TruthValue::count`: `none` (the source's `+infinity`) when the
confidence reaches 1, else `k * confidence / (1 - confidence)`. -/
def TruthValue.count (tv : TruthValue) (k : ℚ) : Option ℚ :=
  if 1 ≤ tv.confidence then none
  else some (k * tv.confidence / (1 - tv.confidence))

/-- `TruthValue::revision`: both operands converted to counts, the new
count is their sum, the new strength the count-weighted average of the
strengths, recombined via `from_count`; the default value is returned
when the summed count is 0.  (When a count is infinite the source
computes IEEE infinities/NaNs; that branch is modelled by the default
value and is outside every statement proved below, which all assume
confidences below 1.) -/
def TruthValue.revision (a b : TruthValue) (k : ℚ) : TruthValue :=
  match a.count k, b.count k with
  | some c1, some c2 =>
      if c1 + c2 = 0 then TruthValue.default'
      else fromCount ((a.strength * c1 + b.strength * c2) / (c1 + c2)) (c1 + c2) k
  | _, _ => TruthValue.default'

/-- The store holding the `ConceptNode`s Animal, Dog, Cat, Bird (in that
fixed insertion order; their canonical uuids are 1–4). -/
def animalBase : AtomSpace :=
  (addNode CONCEPT_NODE "Bird".toList
    (addNode CONCEPT_NODE "Cat".toList
      (addNode CONCEPT_NODE "Dog".toList
        (addNode CONCEPT_NODE "Animal".toList emptySpace).2).2).2).2

/-- Canonical handle of the `ConceptNode "Animal"` in `animalBase`. -/
def animalN : Atom := .node CONCEPT_NODE 1 "Animal".toList

/-- Canonical handle of the `ConceptNode "Dog"` in `animalBase`. -/
def dogN : Atom := .node CONCEPT_NODE 2 "Dog".toList

/-- Canonical handle of the `ConceptNode "Cat"` in `animalBase`. -/
def catN : Atom := .node CONCEPT_NODE 3 "Cat".toList

/-- Canonical handle of the `ConceptNode "Bird"` in `animalBase`. -/
def birdN : Atom := .node CONCEPT_NODE 4 "Bird".toList

/-- `animalBase` extended by `add_link(INHERITANCE_LINK, {c, Animal})`
for each child `c` in the given order. -/
def withInheritance (cs : List Atom) : AtomSpace :=
  cs.foldl (fun st c => (addLink INHERITANCE_LINK [some c, some animalN] st).2)
    animalBase

/-- The pattern `InheritanceLink(Var(X:ConceptNode), Animal)` — its body
is a transient (never inserted) template whose uuids are irrelevant to
matching. -/
def inheritancePattern : Pattern :=
  ⟨[("X".toList, CONCEPT_NODE)],
   some (.link INHERITANCE_LINK 100
     [some (.node VARIABLE_NODE 101 "X".toList),
      some (.node CONCEPT_NODE 102 "Animal".toList)]), []⟩

/-- The deduplication invariant of the primary set: no two structurally
equal atoms coexist (the defining property of an
`unordered_set<Handle, AtomHash, AtomEqual>`). -/
def Dedup (s : AtomSpace) : Prop :=
  s.atoms.Pairwise (fun a b => structEq a b = false)

/-- The uuids of the non-null handles of an outgoing sequence — the keys
under which `add_atom` registers a link in the incoming index. -/
def tsUuids (ts : List (Option Atom)) : List Nat :=
  ts.filterMap (fun h => h.map Atom.uuid)

/-- The uuids of the non-null targets of an atom (empty for nodes). -/
def targetUuids (a : Atom) : List Nat := tsUuids a.out

/-- The key column of an association list has no duplicates (true of a
hash map, where each key owns one bucket). -/
def KeysNodup (m : List (Nat × List Atom)) : Prop := (m.map Prod.fst).Nodup

/-- Soundness of the incoming index: every bucket entry holds stored
links registered under the uuid of one of their non-null targets. -/
def InvA (s : AtomSpace) : Prop :=
  ∀ p ∈ s.incoming, ∀ L ∈ p.2,
    L ∈ s.atoms ∧ L.isLink = true ∧ p.1 ∈ targetUuids L

/-- Completeness of the incoming index: every stored link is present in
the bucket of each of its non-null targets' uuids. -/
def InvB (s : AtomSpace) : Prop :=
  ∀ L ∈ s.atoms, L.isLink = true →
    ∀ u ∈ targetUuids L, L ∈ (mlookup s.incoming u).getD []

/-- Every incoming bucket is itself a structural set (no two
structurally equal members), as an `unordered_set` bucket is. -/
def BucketsDedup (s : AtomSpace) : Prop :=
  ∀ p ∈ s.incoming, p.2.Pairwise (fun x y => structEq x y = false)

/-- The index-consistency invariant maintained by the store: primary-set
deduplication, a well-formed incoming hash map, and a sound and complete
incoming index. -/
def Good (s : AtomSpace) : Prop :=
  Dedup s ∧ KeysNodup s.incoming ∧ BucketsDedup s ∧ InvA s ∧ InvB s

/-- Handle discipline for `remove_atom`: the argument is null, the
canonical stored handle, or structurally absent (callers obtain handles
from the store's own returns; a structurally equal but distinct handle
whose outgoing uuids differ from the canonical one is excluded). -/
def RemoveOk (h : Option Atom) (s : AtomSpace) : Prop :=
  match h with
  | none => True
  | some a => a ∈ s.atoms ∨ (∀ x ∈ s.atoms, structEq x a = false)

instance (s : AtomSpace) : Decidable (Good s) := by
  unfold Good Dedup KeysNodup BucketsDedup InvA InvB
  infer_instance

instance (h : Option Atom) (s : AtomSpace) : Decidable (RemoveOk h s) := by
  unfold RemoveOk
  cases h <;> infer_instance

/-! ### Claim theorems -/

/-- C7: Null and not-found arguments are handled without exceptions and
without state change: `add_atom(null)` is a no-op returning null,
`remove_atom` returns false when its argument is null or not present in
the store and in that case leaves all four indices (the whole state)
unchanged, and `get_incoming` of a null atom returns an empty
sequence. -/
theorem c7_null_and_absent_handling :
    (∀ s : AtomSpace, addAtom none s = (none, s)) ∧
    (∀ s : AtomSpace, removeAtom none s = (false, s)) ∧
    (∀ (s : AtomSpace) (a : Atom), containsAtom (some a) s = false →
      removeAtom (some a) s = (false, s)) ∧
    (∀ s : AtomSpace, getIncoming none s = []) := by
  refine ⟨fun _ => rfl, fun _ => rfl, ?_, fun _ => rfl⟩
  intro s a h
  simp only [containsAtom] at h
  simp only [removeAtom, h]
  simp

/-- Witness for C7 at a concrete absent atom and the empty space. -/
theorem c7_witness :
    removeAtom (some (Atom.node CONCEPT_NODE 1 ['a'])) emptySpace =
      (false, emptySpace) :=
  c7_null_and_absent_handling.2.2.1 emptySpace (Atom.node CONCEPT_NODE 1 ['a'])
    (by decide)

/-- C9: when `match_recursive` encounters a variable in the pattern body
that is already bound, it returns true ("satisfied") without invoking
the callback and without comparing the bound value against anything: no
result is emitted for that occurrence and the outcome is independent of
the bound value and of the store's contents. -/
theorem c9_bound_variable_not_rechecked
    (s : AtomSpace) (p : Pattern) (u : Nat) (v : List Char) (b : Bindings)
    (hbound : (alookup b v).isSome = true) :
    matchRec s p (some (.node VARIABLE_NODE u v)) b = ([], true) := by
  simp [matchRec, isVarNode, hbound]

/-- Witness for C9: a concrete bound variable against a non-empty store
that does hold a structurally different atom for the variable name. -/
theorem c9_witness :
    matchRec (addNode CONCEPT_NODE ['a'] emptySpace).2 ⟨[(['X'], CONCEPT_NODE)], none, []⟩
      (some (.node VARIABLE_NODE 7 ['X'])) [(['X'], some (.node CONCEPT_NODE 5 ['b']))] =
      ([], true) :=
  c9_bound_variable_not_rechecked _ _ 7 ['X'] _ (by decide)

/-- Clamping is a no-op on a value already in `[0,1]`. -/
theorem clamp01_of_mem {x : ℚ} (h0 : 0 ≤ x) (h1 : x ≤ 1) : clamp01 x = x := by
  unfold clamp01
  rw [if_neg (not_lt.mpr h0), if_neg (not_lt.mpr h1)]

/-- `from_count` and `count` cancel for a nonnegative count and positive
`k` (shared by C4 and C5). -/
theorem fromCount_count {s c k : ℚ} (hc : 0 ≤ c) (hk : 0 < k) :
    (fromCount s c k).count k = some c := by
  have hck : 0 < c + k := by linarith
  have hconf0 : 0 ≤ c / (c + k) := div_nonneg hc (le_of_lt hck)
  have hconf1 : c / (c + k) < 1 := (div_lt_one hck).mpr (by linarith)
  have hcl : clamp01 (c / (c + k)) = c / (c + k) :=
    clamp01_of_mem hconf0 (le_of_lt hconf1)
  simp only [fromCount, TruthValue.mk', TruthValue.count, hcl]
  rw [if_neg (not_le.mpr hconf1)]
  have hne : c + k ≠ 0 := ne_of_gt hck
  have h1m : 1 - c / (c + k) = k / (c + k) := by
    field_simp
  rw [h1m]
  have hkne : k ≠ 0 := ne_of_gt hk
  congr 1
  field_simp

/-- C5: `count` is the inverse of `from_count`: for every strength in
`[0,1]`, count `c ≥ 0` and `k > 0`, `from_count(s,c,k).count(k) = c`
in exact (rational) arithmetic; and `count` returns `+infinity`
(modelled as `none`) exactly when the confidence equals 1 (confidences
are clamped to `[0,1]` by construction). -/
theorem c5_count_inverse_of_from_count :
    (∀ s c k : ℚ, 0 ≤ s → s ≤ 1 → 0 ≤ c → 0 < k →
      (fromCount s c k).count k = some c) ∧
    (∀ (tv : TruthValue) (k : ℚ), tv.confidence ≤ 1 →
      ((tv.count k = none) ↔ tv.confidence = 1)) := by
  constructor
  · intro s c k _ _ hc hk
    exact fromCount_count hc hk
  · intro tv k hle
    unfold TruthValue.count
    by_cases h : 1 ≤ tv.confidence
    · rw [if_pos h]
      simp only [true_iff]
      exact le_antisymm hle h
    · rw [if_neg h]
      simp only [reduceCtorEq, false_iff]
      intro heq
      exact h (le_of_eq heq.symm)

/-- Witness for C5 at `s = 7/10`, `c = 800`, `k = 800` and at the
truth value `(7/10, 1/2)`. -/
theorem c5_witness :
    (fromCount (7/10) 800 800).count 800 = some 800 ∧
    ((TruthValue.mk (7/10) (1/2)).count 800 = none ↔
      (TruthValue.mk (7/10) (1/2)).confidence = 1) :=
  ⟨c5_count_inverse_of_from_count.1 (7/10) 800 800 (by norm_num) (by norm_num)
      (by norm_num) (by norm_num),
   c5_count_inverse_of_from_count.2 (TruthValue.mk (7/10) (1/2)) 800 (by norm_num)⟩

/-- C4: `revision(other, k)` combines two truth values as independent
evidence: writing `c1`, `c2` for the two counts (finite whenever the
confidences are below 1), the result is the default truth value when
`c1 + c2 = 0`, and otherwise is `from_count` of the count-weighted
average of the strengths at count `c1 + c2` — so its count is the sum of
the counts and its strength the count-weighted average.  In particular
`revision(from_count(0.8,400), from_count(0.6,400))` with `k = 800` has
strength `0.7` and confidence `0.5`. -/
theorem c4_revision_combines_counts :
    (∀ (a b : TruthValue) (k : ℚ),
      0 ≤ a.strength → a.strength ≤ 1 → 0 ≤ b.strength → b.strength ≤ 1 →
      0 ≤ a.confidence → a.confidence < 1 →
      0 ≤ b.confidence → b.confidence < 1 → 0 < k →
      ∃ c1 c2 : ℚ, a.count k = some c1 ∧ b.count k = some c2 ∧ 0 ≤ c1 ∧ 0 ≤ c2 ∧
        (c1 + c2 = 0 → a.revision b k = TruthValue.default') ∧
        (c1 + c2 ≠ 0 →
          a.revision b k =
            fromCount ((a.strength * c1 + b.strength * c2) / (c1 + c2)) (c1 + c2) k ∧
          (a.revision b k).count k = some (c1 + c2) ∧
          (a.revision b k).strength =
            (a.strength * c1 + b.strength * c2) / (c1 + c2))) ∧
    ((fromCount (8/10) 400 800).revision (fromCount (6/10) 400 800) 800).strength
        = 7/10 ∧
    ((fromCount (8/10) 400 800).revision (fromCount (6/10) 400 800) 800).confidence
        = 1/2 := by
  refine ⟨?_, ?_, ?_⟩
  · intro a b k ha0 ha1 hb0 hb1 hca0 hca1 hcb0 hcb1 hk
    have hden1 : (0:ℚ) < 1 - a.confidence := by linarith
    have hden2 : (0:ℚ) < 1 - b.confidence := by linarith
    set c1 := k * a.confidence / (1 - a.confidence) with hc1def
    set c2 := k * b.confidence / (1 - b.confidence) with hc2def
    have hc1eq : a.count k = some c1 := by
      unfold TruthValue.count
      rw [if_neg (not_le.mpr hca1)]
    have hc2eq : b.count k = some c2 := by
      unfold TruthValue.count
      rw [if_neg (not_le.mpr hcb1)]
    have hc1nn : 0 ≤ c1 :=
      div_nonneg (mul_nonneg (le_of_lt hk) hca0) (le_of_lt hden1)
    have hc2nn : 0 ≤ c2 :=
      div_nonneg (mul_nonneg (le_of_lt hk) hcb0) (le_of_lt hden2)
    refine ⟨c1, c2, hc1eq, hc2eq, hc1nn, hc2nn, ?_, ?_⟩
    · intro hz
      unfold TruthValue.revision
      rw [hc1eq, hc2eq]
      simp [hz]
    · intro hnz
      have hrev : a.revision b k =
          fromCount ((a.strength * c1 + b.strength * c2) / (c1 + c2)) (c1 + c2) k := by
        unfold TruthValue.revision
        rw [hc1eq, hc2eq]
        simp [hnz]
      have hsum0 : 0 ≤ c1 + c2 := by linarith
      have hsumpos : 0 < c1 + c2 := lt_of_le_of_ne hsum0 (Ne.symm hnz)
      have hsnn : 0 ≤ (a.strength * c1 + b.strength * c2) / (c1 + c2) :=
        div_nonneg (by nlinarith) hsum0
      have hsle : (a.strength * c1 + b.strength * c2) / (c1 + c2) ≤ 1 := by
        rw [div_le_one hsumpos]
        nlinarith
      refine ⟨hrev, ?_, ?_⟩
      · rw [hrev]
        exact fromCount_count hsum0 hk
      · rw [hrev]
        show clamp01 _ = _
        exact clamp01_of_mem hsnn hsle
  · norm_num [TruthValue.revision, TruthValue.count, fromCount, TruthValue.mk', clamp01]
  · norm_num [TruthValue.revision, TruthValue.count, fromCount, TruthValue.mk', clamp01]

/-- Witness for C4's universally quantified part at two concrete truth
values with counts 400 each. -/
theorem c4_witness :
    ∃ c1 c2 : ℚ,
      (TruthValue.mk (8/10) (1/3)).count 800 = some c1 ∧
      (TruthValue.mk (6/10) (1/3)).count 800 = some c2 ∧ 0 ≤ c1 ∧ 0 ≤ c2 ∧
      (c1 + c2 = 0 →
        (TruthValue.mk (8/10) (1/3)).revision (TruthValue.mk (6/10) (1/3)) 800 =
          TruthValue.default') ∧
      (c1 + c2 ≠ 0 →
        (TruthValue.mk (8/10) (1/3)).revision (TruthValue.mk (6/10) (1/3)) 800 =
          fromCount (((8:ℚ)/10 * c1 + (6:ℚ)/10 * c2) / (c1 + c2)) (c1 + c2) 800 ∧
        ((TruthValue.mk (8/10) (1/3)).revision (TruthValue.mk (6/10) (1/3)) 800).count 800
          = some (c1 + c2) ∧
        ((TruthValue.mk (8/10) (1/3)).revision (TruthValue.mk (6/10) (1/3)) 800).strength
          = ((8:ℚ)/10 * c1 + (6:ℚ)/10 * c2) / (c1 + c2)) :=
  c4_revision_combines_counts.1 (TruthValue.mk (8/10) (1/3)) (TruthValue.mk (6/10) (1/3))
    800 (by norm_num) (by norm_num) (by norm_num) (by norm_num) (by norm_num)
    (by norm_num) (by norm_num) (by norm_num) (by norm_num)

/-- `hasSub` implements the substring test: it succeeds exactly on
infixes. -/
theorem hasSub_iff (sub l : List Char) : hasSub sub l = true ↔ sub <:+: l := by
  simp only [hasSub, List.any_eq_true, List.mem_tails, List.isPrefixOf_iff_prefix]
  rw [List.infix_iff_prefix_suffix]
  constructor
  · rintro ⟨t, ht, hp⟩; exact ⟨t, hp, ht⟩
  · rintro ⟨t, hp, ht⟩; exact ⟨t, ht, hp⟩

/-- C8: wildcard name matching as used by `find_nodes`: for every node
name, `"Expenses*"` matches exactly the names beginning with
`"Expenses"`, `"*Food"` exactly the names ending with `"Food"`,
`"*Food*"` exactly the names containing `"Food"` anywhere, and a
pattern containing no `'*'` matches only the identical name. -/
theorem c8_wildcard_matching :
    (∀ n : List Char, matchName n ("Expenses*".toList) = true ↔
      "Expenses".toList <+: n) ∧
    (∀ n : List Char, matchName n ("*Food".toList) = true ↔
      "Food".toList <:+ n) ∧
    (∀ n : List Char, matchName n ("*Food*".toList) = true ↔
      "Food".toList <:+: n) ∧
    (∀ (n p : List Char), '*' ∉ p → (matchName n p = true ↔ n = p)) := by
  refine ⟨?_, ?_, ?_, ?_⟩
  · intro n
    show ("Expenses".toList).isPrefixOf n = true ↔ _
    exact List.isPrefixOf_iff_prefix
  · intro n
    show ("Food".toList).isSuffixOf n = true ↔ _
    exact List.isSuffixOf_iff_suffix
  · intro n
    show hasSub ("Food".toList) n = true ↔ _
    exact hasSub_iff _ _
  · intro n p hstar
    match p with
    | [] =>
        show (n == ([] : List Char)) = true ↔ n = []
        exact beq_iff_eq
    | c :: rest =>
        have hc : ¬(c = '*') := fun h => hstar (by rw [h]; exact List.mem_cons_self _ _)
        have h1 : ¬(c :: rest = ['*']) := by
          intro h
          injection h with hh _
          exact hc hh
        have h2 : ¬(c :: rest = ([] : List Char)) := by simp
        obtain ⟨d, hdl⟩ : ∃ d, (c :: rest).getLast? = some d := by
          cases hgl : (c :: rest).getLast? with
          | none => rw [List.getLast?_eq_none_iff] at hgl; exact absurd hgl h2
          | some d => exact ⟨d, rfl⟩
        have hd : ¬(d = '*') :=
          fun h => hstar (h ▸ List.mem_of_getLast?_eq_some hdl)
        have hhead : ((c :: rest).head? == some '*') = false := by
          rw [List.head?_cons]
          exact beq_eq_false_iff_ne.mpr (fun h => hc (Option.some.inj h))
        have hlast : ((c :: rest).getLast? == some '*') = false := by
          rw [hdl]
          exact beq_eq_false_iff_ne.mpr (fun h => hd (Option.some.inj h))
        unfold matchName
        rw [if_neg h1, if_neg h2]
        simp only [hhead, hlast, Bool.false_and, Bool.false_eq_true, if_false,
          beq_iff_eq]

/-- Witness for C8 at concrete names discharging each hypothesis. -/
theorem c8_witness :
    (matchName "ExpensesFood".toList "Expenses*".toList = true ↔
      "Expenses".toList <+: "ExpensesFood".toList) ∧
    (matchName "abc".toList "abc".toList = true ↔
      "abc".toList = "abc".toList) :=
  ⟨c8_wildcard_matching.1 "ExpensesFood".toList,
   c8_wildcard_matching.2.2.2 "abc".toList "abc".toList (by decide)⟩

/-- C3: pattern-match completeness for link bodies: with ConceptNodes
Dog, Cat, Bird each linked to Animal by an `InheritanceLink`, matching
`InheritanceLink(Var(X:ConceptNode), Animal)` produces exactly 3
bindings — `X` bound to Dog, Cat and Bird — whichever of the six
possible link insertion orders was used (the callback fires once per
fully consistent candidate of the body's type and arity). -/
theorem c3_pattern_completeness :
    ∀ cs ∈ [[dogN, catN, birdN], [dogN, birdN, catN], [catN, dogN, birdN],
        [catN, birdN, dogN], [birdN, dogN, catN], [birdN, catN, dogN]],
      (matchCollect (withInheritance cs) inheritancePattern).length = 3 ∧
      (matchCollect (withInheritance cs) inheritancePattern).Perm
        [[("X".toList, some dogN)], [("X".toList, some catN)],
         [("X".toList, some birdN)]] := by
  decide

/-- Witness for C3 at the insertion order Dog, Cat, Bird. -/
theorem c3_witness :
    (matchCollect (withInheritance [dogN, catN, birdN]) inheritancePattern).length = 3 ∧
    (matchCollect (withInheritance [dogN, catN, birdN]) inheritancePattern).Perm
      [[("X".toList, some dogN)], [("X".toList, some catN)],
       [("X".toList, some birdN)]] :=
  c3_pattern_completeness [dogN, catN, birdN] (by decide)

theorem structEq_trans_aux : ∀ n, ∀ a b c : Atom, adepth a ≤ n →
    structEq a b = true → structEq b c = true → structEq a c = true := by
  intro n
  induction n with
  | zero => intro a b c h; cases a <;> simp [adepth] at h
  | succ n ih =>
      intro a b c hle hab hbc
      cases a with
      | node t1 u1 n1 =>
          cases b with
          | node t2 u2 n2 =>
              cases c with
              | node t3 u3 n3 =>
                  simp only [structEq, Bool.and_eq_true, beq_iff_eq] at hab hbc ⊢
                  exact ⟨hab.1.trans hbc.1, hab.2.trans hbc.2⟩
              | link _ _ _ => simp [structEq] at hbc
          | link _ _ _ => simp [structEq] at hab
      | link t1 u1 o1 =>
          cases b with
          | node _ _ _ => simp [structEq] at hab
          | link t2 u2 o2 =>
              cases c with
              | node _ _ _ => simp [structEq] at hbc
              | link t3 u3 o3 =>
                  simp only [structEq, Bool.and_eq_true, beq_iff_eq] at hab hbc ⊢
                  obtain ⟨⟨ht12, hl12⟩, hs12⟩ := hab
                  obtain ⟨⟨ht23, hl23⟩, hs23⟩ := hbc
                  refine ⟨⟨ht12.trans ht23, hl12.trans hl23⟩, ?_⟩
                  have hdep : ldepth o1 ≤ n := by
                    simp only [adepth] at hle; omega
                  clear ht12 ht23 hl12 hl23 hle
                  induction o1 generalizing o2 o3 with
                  | nil =>
                      cases o2 with
                      | nil =>
                          cases o3 with
                          | nil => rfl
                          | cons _ _ => simp [structEqL] at hs23
                      | cons _ _ => simp [structEqL] at hs12
                  | cons x xs ihl =>
                      cases o2 with
                      | nil => simp [structEqL] at hs12
                      | cons y ys =>
                          cases o3 with
                          | nil => simp [structEqL] at hs23
                          | cons z zs =>
                              simp only [structEqL, Bool.and_eq_true] at hs12 hs23 ⊢
                              obtain ⟨hxy, hxsys⟩ := hs12
                              obtain ⟨hyz, hyszs⟩ := hs23
                              constructor
                              · cases x with
                                | none =>
                                    cases y with
                                    | none =>
                                        cases z with
                                        | none => rfl
                                        | some _ => simp [structEqH] at hyz
                                    | some _ => simp [structEqH] at hxy
                                | some xa =>
                                    cases y with
                                    | none => simp [structEqH] at hxy
                                    | some ya =>
                                        cases z with
                                        | none => simp [structEqH] at hyz
                                        | some za =>
                                            simp only [structEqH] at hxy hyz ⊢
                                            have hxd : adepth xa ≤ n := by
                                              have : adepth xa ≤ ldepth (some xa :: xs) := by
                                                simp [ldepth, le_max_iff]
                                              omega
                                            exact ih xa ya za hxd hxy hyz
                              · have hxsd : ldepth xs ≤ n := by
                                  cases x with
                                  | none => simpa [ldepth] using hdep
                                  | some xa =>
                                      have : ldepth xs ≤ ldepth (some xa :: xs) := by
                                        simp [ldepth, le_max_iff]
                                      omega
                                exact ihl ys zs hxsys hyszs hxsd

theorem structEq_trans (a b c : Atom) (h1 : structEq a b = true)
    (h2 : structEq b c = true) : structEq a c = true :=
  structEq_trans_aux (adepth a) a b c le_rfl h1 h2

/-- In a structurally-deduplicated set, erasing by structural equality
leaves no structurally equal element behind. -/
theorem any_serase_false {l : List Atom} {a : Atom}
    (hd : l.Pairwise (fun x y => structEq x y = false)) :
    (serase l a).any (fun x => structEq x a) = false := by
  induction l with
  | nil => rfl
  | cons e rest ih =>
      rw [List.pairwise_cons] at hd
      obtain ⟨he, hrest⟩ := hd
      unfold serase
      rw [List.eraseP_cons]
      cases hea : structEq e a with
      | true =>
          simp only [cond_true]
          rw [List.any_eq_false]
          intro x hx
          simp only [Bool.not_eq_true]
          cases hxa : structEq x a with
          | true =>
              have hax : structEq a x = true := by rw [structEq_symm] at hxa; exact hxa
              have : structEq e x = true := structEq_trans e a x hea hax
              rw [he x hx] at this
              cases this
          | false => rfl
      | false =>
          simp only [cond_false, List.any_cons, hea, Bool.false_or]
          exact ih hrest

/-- C10: `remove_atom` does not clear the removed atom's own
incoming-set bucket: for a node X in the store referenced by a link L,
after `remove_atom(X)` returns true, `get_incoming` with the old handle
to X returns the unchanged bucket, still containing L, while X itself is
no longer found in the primary set. -/
theorem c10_soft_deleted_incoming_persists
    (s : AtomSpace) (x l : Atom)
    (hnode : x.isNode = true)
    (hmem : containsAtom (some x) s = true)
    (hdedup : s.atoms.Pairwise (fun a b => structEq a b = false))
    (hl : l ∈ getIncoming (some x) s) :
    (removeAtom (some x) s).1 = true ∧
    getIncoming (some x) (removeAtom (some x) s).2 = getIncoming (some x) s ∧
    l ∈ getIncoming (some x) (removeAtom (some x) s).2 ∧
    containsAtom (some x) (removeAtom (some x) s).2 = false := by
  have hfound : s.atoms.any (fun y => structEq y x) = true := hmem
  have hnl : x.isLink = false := by
    cases x with
    | node _ _ _ => rfl
    | link _ _ _ => cases hnode
  simp only [removeAtom, hfound, if_true, hnl, if_false]
  refine ⟨by trivial, rfl, hl, ?_⟩
  simp only [containsAtom]
  exact any_serase_false hdedup

/-- Witness for C10: remove the node `"a"` from a store where the link
`(a)` refers to it; the stale bucket still answers with the link. -/
theorem c10_witness :
    (removeAtom (some (Atom.node CONCEPT_NODE 1 ['a']))
        (addLink INHERITANCE_LINK [some (.node CONCEPT_NODE 1 ['a'])]
          (addNode CONCEPT_NODE ['a'] emptySpace).2).2).1 = true ∧
    getIncoming (some (Atom.node CONCEPT_NODE 1 ['a']))
        (removeAtom (some (Atom.node CONCEPT_NODE 1 ['a']))
          (addLink INHERITANCE_LINK [some (.node CONCEPT_NODE 1 ['a'])]
            (addNode CONCEPT_NODE ['a'] emptySpace).2).2).2 =
      getIncoming (some (Atom.node CONCEPT_NODE 1 ['a']))
        (addLink INHERITANCE_LINK [some (.node CONCEPT_NODE 1 ['a'])]
          (addNode CONCEPT_NODE ['a'] emptySpace).2).2 ∧
    Atom.link INHERITANCE_LINK 2 [some (.node CONCEPT_NODE 1 ['a'])] ∈
      getIncoming (some (Atom.node CONCEPT_NODE 1 ['a']))
        (removeAtom (some (Atom.node CONCEPT_NODE 1 ['a']))
          (addLink INHERITANCE_LINK [some (.node CONCEPT_NODE 1 ['a'])]
            (addNode CONCEPT_NODE ['a'] emptySpace).2).2).2 ∧
    containsAtom (some (Atom.node CONCEPT_NODE 1 ['a']))
        (removeAtom (some (Atom.node CONCEPT_NODE 1 ['a']))
          (addLink INHERITANCE_LINK [some (.node CONCEPT_NODE 1 ['a'])]
            (addNode CONCEPT_NODE ['a'] emptySpace).2).2).2 = false :=
  c10_soft_deleted_incoming_persists _ _ _ (by decide) (by decide) (by decide)
    (by decide)

/-- A node template's uuid is irrelevant to structural equality. -/
theorem structEq_node_uuid (x : Atom) (t u u' : Nat) (n : List Char) :
    structEq x (.node t u n) = structEq x (.node t u' n) := by
  cases x <;> rfl

/-- `sfind` with a node template does not depend on the template's
uuid. -/
theorem sfind_node_uuid (l : List Atom) (t u u' : Nat) (n : List Char) :
    sfind l (.node t u n) = sfind l (.node t u' n) := by
  unfold sfind
  congr 1
  funext x
  exact structEq_node_uuid x t u u' n

/-- The atom returned by `add_atom`: the canonical stored one when a
structurally equal atom exists, the argument itself otherwise. -/
theorem addAtom_fst (s : AtomSpace) (a : Atom) :
    (addAtom (some a) s).1 = some ((sfind s.atoms a).getD a) := by
  cases h : sfind s.atoms a <;> simp [addAtom, h]

/-- The primary set after `add_atom`: unchanged on deduplication, the
argument appended otherwise. -/
theorem addAtom_atoms (s : AtomSpace) (a : Atom) :
    (addAtom (some a) s).2.atoms =
      if (sfind s.atoms a).isSome then s.atoms else s.atoms ++ [a] := by
  cases h : sfind s.atoms a <;> simp [addAtom, h]

/-- `add_atom` does not touch the uuid counter. -/
theorem addAtom_nextUuid (s : AtomSpace) (a : Atom) :
    (addAtom (some a) s).2.nextUuid = s.nextUuid := by
  cases h : sfind s.atoms a <;> simp [addAtom, h]

/-- The atom returned by `add_node`, in terms of the canonical lookup of
its fresh template. -/
theorem addNode_fst (s : AtomSpace) (t : Nat) (n : List Char) :
    (addNode t n s).1 =
      some ((sfind s.atoms (.node t s.nextUuid n)).getD (.node t s.nextUuid n)) :=
  addAtom_fst _ _

/-- The primary set after `add_node`. -/
theorem addNode_atoms (s : AtomSpace) (t : Nat) (n : List Char) :
    (addNode t n s).2.atoms =
      if (sfind s.atoms (.node t s.nextUuid n)).isSome then s.atoms
      else s.atoms ++ [.node t s.nextUuid n] :=
  addAtom_atoms _ _

/-- `add_node` consumes exactly one uuid. -/
theorem addNode_nextUuid (s : AtomSpace) (t : Nat) (n : List Char) :
    (addNode t n s).2.nextUuid = s.nextUuid + 1 :=
  addAtom_nextUuid _ _

/-- `add_atom` preserves primary-set deduplication (shared helper). -/
theorem dedup_addAtom (s : AtomSpace) (h : Option Atom) (hd : Dedup s) :
    Dedup (addAtom h s).2 := by
  match h with
  | none => exact hd
  | some a =>
    cases hf : sfind s.atoms a with
    | some c => simp only [addAtom, hf]; exact hd
    | none =>
        unfold Dedup
        rw [addAtom_atoms, hf]
        simp only [Option.isSome_none, Bool.false_eq_true, if_false]
        rw [List.pairwise_append]
        refine ⟨hd, List.pairwise_singleton _ _, ?_⟩
        intro x hx y hy
        rw [List.mem_singleton] at hy
        subst hy
        unfold sfind at hf
        rw [List.find?_eq_none] at hf
        have := hf x hx
        simpa using this

/-- `remove_atom` preserves primary-set deduplication (shared helper). -/
theorem dedup_removeAtom (s : AtomSpace) (h : Option Atom) (hd : Dedup s) :
    Dedup (removeAtom h s).2 := by
  match h with
  | none => exact hd
  | some a =>
      unfold removeAtom
      cases hany : s.atoms.any (fun x => structEq x a) with
      | false =>
          simp only [hany, Bool.false_eq_true, if_false]
          exact hd
      | true =>
          simp only [hany, if_true]
          unfold Dedup at hd ⊢
          exact hd.sublist (List.eraseP_sublist _)

/-- C2: insertion is deduplicating and idempotent: a second
`add_node(t,n)` returns the very same canonical atom as the first and
leaves the primary set (hence `size()`) unchanged; a first insertion of
an absent `(t,n)` grows `size()` by exactly 1; and the
no-two-structurally-equal-atoms invariant holds of the empty space and
is preserved by `add_atom`, `add_node`, `add_link` and `remove_atom`
with arbitrary arguments. -/
theorem c2_insertion_dedup_idempotent :
    (∀ (s : AtomSpace) (t : Nat) (n : List Char),
      (addNode t n (addNode t n s).2).1 = (addNode t n s).1 ∧
      (addNode t n (addNode t n s).2).2.atoms = (addNode t n s).2.atoms ∧
      size (addNode t n (addNode t n s).2).2 = size (addNode t n s).2) ∧
    (∀ (s : AtomSpace) (t : Nat) (n : List Char),
      getNode t n s = none → size (addNode t n s).2 = size s + 1) ∧
    Dedup emptySpace ∧
    (∀ (s : AtomSpace) (h : Option Atom), Dedup s → Dedup (addAtom h s).2) ∧
    (∀ (s : AtomSpace) (t : Nat) (n : List Char), Dedup s → Dedup (addNode t n s).2) ∧
    (∀ (s : AtomSpace) (t : Nat) (o : List (Option Atom)),
      Dedup s → Dedup (addLink t o s).2) ∧
    (∀ (s : AtomSpace) (h : Option Atom), Dedup s → Dedup (removeAtom h s).2) := by
  have haddAtom : ∀ (s : AtomSpace) (h : Option Atom), Dedup s → Dedup (addAtom h s).2 :=
    dedup_addAtom
  refine ⟨?_, ?_, ?_, haddAtom, ?_, ?_, ?_⟩
  · intro s t n
    have hatoms1 := addNode_atoms s t n
    have hnext1 := addNode_nextUuid s t n
    have huuid2 : sfind (addNode t n s).2.atoms
        (.node t (addNode t n s).2.nextUuid n) =
        sfind (addNode t n s).2.atoms (.node t s.nextUuid n) := by
      rw [hnext1]
      exact sfind_node_uuid _ t (s.nextUuid + 1) s.nextUuid n
    cases hf : sfind s.atoms (Atom.node t s.nextUuid n) with
    | some c =>
        have hatoms : (addNode t n s).2.atoms = s.atoms := by
          rw [hatoms1, hf]
          rfl
        have hfind2 : sfind (addNode t n s).2.atoms
            (.node t (addNode t n s).2.nextUuid n) = some c := by
          rw [huuid2, hatoms, hf]
        refine ⟨?_, ?_, ?_⟩
        · rw [addNode_fst, addNode_fst, hfind2, hf]
          rfl
        · rw [addNode_atoms, hfind2]
          rfl
        · unfold size
          rw [addNode_atoms, hfind2]
          rfl
    | none =>
        have hatoms : (addNode t n s).2.atoms = s.atoms ++ [Atom.node t s.nextUuid n] := by
          rw [hatoms1, hf]
          rfl
        have hfind2 : sfind (addNode t n s).2.atoms
            (.node t (addNode t n s).2.nextUuid n) = some (Atom.node t s.nextUuid n) := by
          rw [huuid2, hatoms]
          unfold sfind
          rw [List.find?_append]
          have hl : List.find? (fun x => structEq x (Atom.node t s.nextUuid n))
              s.atoms = none := hf
          rw [hl]
          simp only [Option.none_or]
          have hse : structEq (Atom.node t s.nextUuid n) (Atom.node t s.nextUuid n) = true :=
            structEq_refl _
          simp [List.find?, hse]
        refine ⟨?_, ?_, ?_⟩
        · rw [addNode_fst, addNode_fst, hfind2, hf]
          rfl
        · rw [addNode_atoms, hfind2]
          rfl
        · unfold size
          rw [addNode_atoms, hfind2]
          rfl
  · intro s t n hget
    have hf : sfind s.atoms (Atom.node t s.nextUuid n) = none := by
      rw [sfind_node_uuid s.atoms t s.nextUuid 0 n]
      exact hget
    unfold size
    rw [addNode_atoms, hf]
    simp
  · exact List.Pairwise.nil
  · intro s t n hd
    exact haddAtom _ _ hd
  · intro s t o hd
    exact haddAtom _ _ hd
  · intro s h hd
    exact dedup_removeAtom s h hd

/-- Witness for C2: a double insertion of `ConceptNode "a"` into the
empty space, plus the dedup invariant across a removal. -/
theorem c2_witness :
    ((addNode CONCEPT_NODE ['a'] (addNode CONCEPT_NODE ['a'] emptySpace).2).1 =
      (addNode CONCEPT_NODE ['a'] emptySpace).1 ∧
     (addNode CONCEPT_NODE ['a'] (addNode CONCEPT_NODE ['a'] emptySpace).2).2.atoms =
      (addNode CONCEPT_NODE ['a'] emptySpace).2.atoms ∧
     size (addNode CONCEPT_NODE ['a'] (addNode CONCEPT_NODE ['a'] emptySpace).2).2 =
      size (addNode CONCEPT_NODE ['a'] emptySpace).2) ∧
    size (addNode CONCEPT_NODE ['a'] emptySpace).2 = size emptySpace + 1 ∧
    Dedup (removeAtom (some (.node CONCEPT_NODE 1 ['a']))
      (addNode CONCEPT_NODE ['a'] emptySpace).2).2 :=
  ⟨c2_insertion_dedup_idempotent.1 emptySpace CONCEPT_NODE ['a'],
   c2_insertion_dedup_idempotent.2.1 emptySpace CONCEPT_NODE ['a'] (by decide),
   c2_insertion_dedup_idempotent.2.2.2.2.2.2 _ _
     (c2_insertion_dedup_idempotent.2.2.2.1 emptySpace
       (some (.node CONCEPT_NODE 1 ['a'])) c2_insertion_dedup_idempotent.2.2.1)⟩

/-- Looking up the key just modified by `map[k] → f` yields `f` of the
previous bucket (empty when the key was absent, as with `operator[]`). -/
theorem mlookup_bucketMod_self (m : List (Nat × List Atom)) (k : Nat)
    (f : List Atom → List Atom) :
    mlookup (bucketMod m k f) k = some (f ((mlookup m k).getD [])) := by
  induction m with
  | nil => simp [bucketMod, mlookup]
  | cons p rest ih =>
      obtain ⟨q, b⟩ := p
      by_cases h : q = k
      · subst h
        simp [bucketMod, mlookup]
      · simp [bucketMod, mlookup, h, ih]

/-- Other keys are untouched by a bucket modification. -/
theorem mlookup_bucketMod_other (m : List (Nat × List Atom)) (k u : Nat)
    (f : List Atom → List Atom) (h : u ≠ k) :
    mlookup (bucketMod m k f) u = mlookup m u := by
  induction m with
  | nil => simp [bucketMod, mlookup, h, Ne.symm h]
  | cons p rest ih =>
      obtain ⟨q, b⟩ := p
      by_cases hq : q = k
      · subst hq
        simp [bucketMod, mlookup, Ne.symm h]
      · by_cases hu : q = u
        · subst hu
          simp [bucketMod, mlookup, hq]
        · simp [bucketMod, mlookup, hq, hu, ih]

/-- An element whose predicate fails survives `eraseP`. -/
theorem mem_eraseP_of_p_false {α : Type} {p : α → Bool} {l : List α} {a : α}
    (ha : a ∈ l) (hpa : p a = false) : a ∈ l.eraseP p := by
  induction l with
  | nil => cases ha
  | cons x xs ih =>
      rw [List.eraseP_cons]
      rcases List.mem_cons.mp ha with rfl | hmem
      · rw [hpa]
        simp
      · cases hx : p x with
        | true => simpa using hmem
        | false =>
            simp only [cond_false, List.mem_cons]
            right
            exact ih hmem

/-- When at most one element satisfies the predicate, an element that
satisfies it is gone after `eraseP`. -/
theorem not_mem_eraseP_of_countP_le_one {α : Type} {p : α → Bool} {l : List α} {a : α}
    (h : l.countP p ≤ 1) (hpa : p a = true) : a ∉ l.eraseP p := by
  induction l with
  | nil => simp
  | cons x xs ih =>
      rw [List.eraseP_cons]
      rw [List.countP_cons] at h
      cases hx : p x with
      | true =>
          simp only [cond_true]
          intro hmem
          have h1 : 0 < xs.countP p := List.countP_pos_iff.mpr ⟨a, hmem, hpa⟩
          rw [hx] at h
          have h2 : xs.countP p + 1 ≤ 1 := by simpa using h
          omega
      | false =>
          simp only [cond_false, List.mem_cons, not_or]
          refine ⟨?_, ?_⟩
          · rintro rfl
            rw [hpa] at hx
            cases hx
          · refine ih ?_
            rw [hx] at h
            simpa using h

/-- Incoming buckets only shrink under the erase loop of
`remove_atom`. -/
theorem unregTargets_getD_sublist (a : Atom) (ts : List (Option Atom))
    (m : List (Nat × List Atom)) (u : Nat) :
    List.Sublist ((mlookup (unregTargets a ts m) u).getD [])
      ((mlookup m u).getD []) := by
  induction ts generalizing m with
  | nil => exact List.Sublist.refl _
  | cons h rest ih =>
      cases h with
      | none => exact ih m
      | some t =>
          refine (ih _).trans ?_
          by_cases hu : u = t.uuid
          · subst hu
            rw [mlookup_bucketMod_self]
            simp only [Option.getD_some]
            exact List.eraseP_sublist _
          · rw [mlookup_bucketMod_other _ _ _ _ hu]

/-- If the incoming bucket of `u` holds at most the single link being
removed and `u` is the uuid of one of its non-null targets, the erase
loop of `remove_atom` leaves that bucket empty. -/
theorem unregTargets_clears (a X : Atom) (ts : List (Option Atom))
    (m : List (Nat × List Atom))
    (hX : some X ∈ ts)
    (hb : (mlookup m X.uuid).getD [] = [] ∨
      ∃ L, (mlookup m X.uuid).getD [] = [L] ∧ structEq L a = true) :
    (mlookup (unregTargets a ts m) X.uuid).getD [] = [] := by
  induction ts generalizing m with
  | nil => cases hX
  | cons h rest ih =>
      rcases List.mem_cons.mp hX with heq | hmem
      · rw [← heq]
        have hcleared : (mlookup (bucketMod m X.uuid (fun b => serase b a))
            X.uuid).getD [] = [] := by
          rw [mlookup_bucketMod_self]
          simp only [Option.getD_some]
          rcases hb with hb | ⟨L, hb, hLa⟩
          · rw [hb]
            rfl
          · rw [hb]
            unfold serase
            rw [List.eraseP_cons, hLa]
            rfl
        have := unregTargets_getD_sublist a rest
          (bucketMod m X.uuid (fun b => serase b a)) X.uuid
        rw [hcleared] at this
        exact List.sublist_nil.mp this
      · cases h with
        | none => exact ih _ hmem hb
        | some t =>
            refine ih _ hmem ?_
            by_cases hu : X.uuid = t.uuid
            · rw [hu, mlookup_bucketMod_self]
              simp only [Option.getD_some]
              rw [← hu]
              rcases hb with hb | ⟨L, hb, hLa⟩
              · left
                rw [hb]
                rfl
              · left
                rw [hb]
                unfold serase
                rw [List.eraseP_cons, hLa]
                rfl
            · rw [mlookup_bucketMod_other _ _ _ _ hu]
              exact hb

/-- C6: soft-delete semantics of `remove_atom`: removing a stored link L
that is the sole link referring to atom X (one of its non-null outgoing
targets) succeeds, empties `get_incoming(X)`, removes L from
`get_atoms_by_type(L.type)`, shrinks `size()` by exactly 1, and keeps
every stored endpoint of L in the store.  (A handle to L kept from
before the removal is an immutable value of this model, so its type and
outgoing content are unchanged by construction.) -/
theorem c6_soft_delete_semantics
    (s : AtomSpace) (L X : Atom)
    (hlink : L.isLink = true)
    (hmem : L ∈ s.atoms)
    (hinc : getIncoming (some X) s = [L])
    (hXout : some X ∈ L.out)
    (htype : (getAtomsByType L.ty s).countP (fun y => structEq y L) ≤ 1) :
    (removeAtom (some L) s).1 = true ∧
    getIncoming (some X) (removeAtom (some L) s).2 = [] ∧
    L ∉ getAtomsByType L.ty (removeAtom (some L) s).2 ∧
    size s = size (removeAtom (some L) s).2 + 1 ∧
    (∀ Y : Atom, some Y ∈ L.out → Y ∈ s.atoms →
      Y ∈ (removeAtom (some L) s).2.atoms) := by
  have hany : s.atoms.any (fun x => structEq x L) = true :=
    List.any_eq_true.mpr ⟨L, hmem, structEq_refl L⟩
  simp only [removeAtom, hany, if_true, hlink]
  refine ⟨by trivial, ?_, ?_, ?_, ?_⟩
  · simp only [getIncoming]
    exact unregTargets_clears L X L.out s.incoming hXout
      (Or.inr ⟨L, hinc, structEq_refl L⟩)
  · simp only [getAtomsByType]
    rw [mlookup_bucketMod_self]
    simp only [Option.getD_some]
    exact not_mem_eraseP_of_countP_le_one htype (structEq_refl L)
  · simp only [size, serase]
    have hlen := List.length_eraseP_add_one (p := fun x => structEq x L) hmem
      (structEq_refl L)
    omega
  · intro Y hYout hYmem
    simp only [serase]
    exact mem_eraseP_of_p_false hYmem (by
      cases L with
      | node _ _ _ => cases hlink
      | link lt lu lo => exact structEq_out_false hYout)

/-- Witness for C6: in the Animal scenario, remove the Dog inheritance
link — the sole referrer of Dog. -/
theorem c6_witness :
    (removeAtom (some (Atom.link INHERITANCE_LINK 5 [some dogN, some animalN]))
      (withInheritance [dogN, catN, birdN])).1 = true ∧
    getIncoming (some dogN)
      (removeAtom (some (Atom.link INHERITANCE_LINK 5 [some dogN, some animalN]))
        (withInheritance [dogN, catN, birdN])).2 = [] ∧
    (Atom.link INHERITANCE_LINK 5 [some dogN, some animalN]) ∉
      getAtomsByType INHERITANCE_LINK
        (removeAtom (some (Atom.link INHERITANCE_LINK 5 [some dogN, some animalN]))
          (withInheritance [dogN, catN, birdN])).2 ∧
    size (withInheritance [dogN, catN, birdN]) =
      size (removeAtom (some (Atom.link INHERITANCE_LINK 5 [some dogN, some animalN]))
        (withInheritance [dogN, catN, birdN])).2 + 1 ∧
    (∀ Y : Atom,
      some Y ∈ (Atom.link INHERITANCE_LINK 5 [some dogN, some animalN]).out →
      Y ∈ (withInheritance [dogN, catN, birdN]).atoms →
      Y ∈ (removeAtom (some (Atom.link INHERITANCE_LINK 5 [some dogN, some animalN]))
        (withInheritance [dogN, catN, birdN])).2.atoms) := by
  have h := c6_soft_delete_semantics (withInheritance [dogN, catN, birdN])
    (Atom.link INHERITANCE_LINK 5 [some dogN, some animalN]) dogN
    (by decide) (by decide) (by decide) (by decide) (by decide)
  simpa using h

/-- The key column after a bucket modification: unchanged when the key
was present, the key appended when `operator[]` created it. -/
theorem keys_bucketMod (m : List (Nat × List Atom)) (k : Nat)
    (f : List Atom → List Atom) :
    (bucketMod m k f).map Prod.fst =
      if k ∈ m.map Prod.fst then m.map Prod.fst else m.map Prod.fst ++ [k] := by
  induction m with
  | nil => simp [bucketMod]
  | cons p rest ih =>
      obtain ⟨q, b⟩ := p
      by_cases h : q = k
      · subst h
        simp [bucketMod]
      · simp only [bucketMod, if_neg h, List.map_cons, ih]
        by_cases hk : k ∈ rest.map Prod.fst
        · simp [hk, Ne.symm h]
        · simp [hk, Ne.symm h]

/-- A bucket modification keeps the hash-map keys duplicate-free. -/
theorem keysNodup_bucketMod {m : List (Nat × List Atom)} (k : Nat)
    (f : List Atom → List Atom) (h : KeysNodup m) :
    KeysNodup (bucketMod m k f) := by
  unfold KeysNodup at h ⊢
  rw [keys_bucketMod]
  by_cases hk : k ∈ m.map Prod.fst
  · simpa [hk] using h
  · simp only [hk, if_false]
    rw [List.nodup_append]
    refine ⟨h, List.nodup_singleton _, ?_⟩
    intro x hx hxk
    rw [List.mem_singleton] at hxk
    subst hxk
    exact hk hx

/-- The registration loop of `add_atom` keeps the keys duplicate-free. -/
theorem keysNodup_regTargets (a : Atom) (ts : List (Option Atom))
    {m : List (Nat × List Atom)} (h : KeysNodup m) :
    KeysNodup (regTargets a ts m) := by
  induction ts generalizing m with
  | nil => exact h
  | cons x rest ih =>
      cases x with
      | none => exact ih h
      | some t => exact ih (keysNodup_bucketMod _ _ h)

/-- The erase loop of `remove_atom` keeps the keys duplicate-free. -/
theorem keysNodup_unregTargets (a : Atom) (ts : List (Option Atom))
    {m : List (Nat × List Atom)} (h : KeysNodup m) :
    KeysNodup (unregTargets a ts m) := by
  induction ts generalizing m with
  | nil => exact h
  | cons x rest ih =>
      cases x with
      | none => exact ih h
      | some t => exact ih (keysNodup_bucketMod _ _ h)

/-- A successful lookup names an actual entry. -/
theorem mlookup_mem {m : List (Nat × List Atom)} {k : Nat} {b : List Atom}
    (h : mlookup m k = some b) : (k, b) ∈ m := by
  induction m with
  | nil => cases h
  | cons p rest ih =>
      obtain ⟨q, c⟩ := p
      by_cases hq : q = k
      · subst hq
        have h2 : some c = some b := by simpa [mlookup] using h
        injection h2 with h2
        subst h2
        exact List.mem_cons_self _ _
      · simp only [mlookup, if_neg hq] at h
        exact List.mem_cons_of_mem _ (ih h)

/-- With duplicate-free keys, every entry is what lookup returns. -/
theorem mem_mlookup_of_nodup {m : List (Nat × List Atom)} {k : Nat} {b : List Atom}
    (hn : KeysNodup m) (h : (k, b) ∈ m) : mlookup m k = some b := by
  induction m with
  | nil => cases h
  | cons p rest ih =>
      obtain ⟨q, c⟩ := p
      unfold KeysNodup at hn
      rw [List.map_cons, List.nodup_cons] at hn
      rcases List.mem_cons.mp h with heq | hmem
      · rw [← heq]
        simp [mlookup]
      · have hq : q ≠ k := by
          intro hqk
          subst hqk
          exact hn.1 (List.mem_map.mpr ⟨(q, b), hmem, rfl⟩)
        simp only [mlookup, if_neg hq]
        exact ih hn.2 hmem

/-- Inserting a structurally fresh atom into a set bucket appends it. -/
theorem sinsert_eq_append {b : List Atom} {a : Atom}
    (h : ∀ x ∈ b, structEq x a = false) : sinsert b a = b ++ [a] := by
  unfold sinsert
  rw [if_neg]
  intro hany
  obtain ⟨x, hx, hsx⟩ := List.any_eq_true.mp hany
  rw [h x hx] at hsx
  cases hsx

/-- Inserting into a bucket that already holds a structurally equal
member is a no-op. -/
theorem sinsert_eq_self {b : List Atom} {a : Atom}
    (h : ∃ x ∈ b, structEq x a = true) : sinsert b a = b := by
  unfold sinsert
  rw [if_pos]
  exact List.any_eq_true.mpr h

/-- Erasing from a bucket with no structurally equal member is a
no-op. -/
theorem serase_eq_self {b : List Atom} {a : Atom}
    (h : ∀ x ∈ b, structEq x a = false) : serase b a = b := by
  unfold serase
  apply List.eraseP_of_forall_not
  intro x hx
  simp [h x hx]

/-- Membership in a structural-set bucket after erasure: exactly the old
members other than the erased one, provided the erased atom was a member
of the deduplicated bucket. -/
theorem mem_serase_pairwise {l : List Atom} {a : Atom}
    (hp : l.Pairwise (fun x y => structEq x y = false)) (hmem : a ∈ l) :
    ∀ M : Atom, M ∈ serase l a ↔ (M ∈ l ∧ M ≠ a) := by
  induction l with
  | nil => cases hmem
  | cons x xs ih =>
      rw [List.pairwise_cons] at hp
      intro M
      rcases List.mem_cons.mp hmem with heq | hmemxs
      · subst heq
        have hnotmem : a ∉ xs := by
          intro hax
          have := hp.1 a hax
          rw [structEq_refl a] at this
          cases this
        unfold serase
        rw [List.eraseP_cons, structEq_refl a]
        simp only [cond_true, List.mem_cons]
        constructor
        · intro hM
          refine ⟨Or.inr hM, ?_⟩
          rintro rfl
          exact hnotmem hM
        · rintro ⟨hM | hM, hne⟩
          · exact absurd hM hne
          · exact hM
      · have hxa : structEq x a = false := hp.1 a hmemxs
        have hxne : x ≠ a := by
          rintro rfl
          rw [structEq_refl x] at hxa
          cases hxa
        unfold serase
        rw [List.eraseP_cons, hxa]
        simp only [cond_false, List.mem_cons]
        rw [show List.eraseP (fun y => structEq y a) xs = serase xs a from rfl]
        rw [ih hp.2 hmemxs M]
        constructor
        · rintro (rfl | ⟨hM, hne⟩)
          · exact ⟨Or.inl rfl, hxne⟩
          · exact ⟨Or.inr hM, hne⟩
        · rintro ⟨rfl | hM, hne⟩
          · exact Or.inl rfl
          · exact Or.inr ⟨hM, hne⟩

/-- `tsUuids` skips a null handle. -/
theorem tsUuids_cons_none (r : List (Option Atom)) :
    tsUuids (none :: r) = tsUuids r := rfl

/-- `tsUuids` records a non-null handle's uuid. -/
theorem tsUuids_cons_some (t : Atom) (r : List (Option Atom)) :
    tsUuids (some t :: r) = t.uuid :: tsUuids r := rfl

/-- The registration loop leaves buckets of non-target uuids alone. -/
theorem regTargets_getD_not_mem (a : Atom) (ts : List (Option Atom))
    (m : List (Nat × List Atom)) (u : Nat) (h : u ∉ tsUuids ts) :
    (mlookup (regTargets a ts m) u).getD [] = (mlookup m u).getD [] := by
  induction ts generalizing m with
  | nil => rfl
  | cons x rest ih =>
      cases x with
      | none => exact ih m (by rwa [tsUuids_cons_none] at h)
      | some t =>
          rw [tsUuids_cons_some, List.mem_cons] at h
          push_neg at h
          show (mlookup (regTargets a rest
            (bucketMod m t.uuid (fun b => sinsert b a))) u).getD [] =
            (mlookup m u).getD []
          rw [ih _ h.2, mlookup_bucketMod_other _ _ _ _ h.1]

/-- The registration loop is a no-op on a bucket already holding a
structurally equal member. -/
theorem regTargets_getD_saturated (a : Atom) (ts : List (Option Atom))
    (m : List (Nat × List Atom)) (u : Nat)
    (h : ∃ x ∈ (mlookup m u).getD [], structEq x a = true) :
    (mlookup (regTargets a ts m) u).getD [] = (mlookup m u).getD [] := by
  induction ts generalizing m with
  | nil => rfl
  | cons x rest ih =>
      cases x with
      | none => exact ih m h
      | some t =>
          show (mlookup (regTargets a rest
            (bucketMod m t.uuid (fun b => sinsert b a))) u).getD [] =
            (mlookup m u).getD []
          by_cases hu : u = t.uuid
          · subst hu
            have hb : (mlookup (bucketMod m t.uuid (fun b => sinsert b a))
                t.uuid).getD [] = (mlookup m t.uuid).getD [] := by
              rw [mlookup_bucketMod_self]
              simp only [Option.getD_some]
              exact sinsert_eq_self h
            rw [ih _ (by rw [hb]; exact h), hb]
          · rw [ih _ (by rw [mlookup_bucketMod_other _ _ _ _ hu]; exact h),
              mlookup_bucketMod_other _ _ _ _ hu]

/-- The registration loop appends the link once to the bucket of each
target uuid whose bucket held no structurally equal member. -/
theorem regTargets_getD_fresh (a : Atom) (ts : List (Option Atom))
    (m : List (Nat × List Atom)) (u : Nat)
    (hmem : u ∈ tsUuids ts)
    (hfresh : ∀ x ∈ (mlookup m u).getD [], structEq x a = false) :
    (mlookup (regTargets a ts m) u).getD [] = (mlookup m u).getD [] ++ [a] := by
  induction ts generalizing m with
  | nil => cases hmem
  | cons x rest ih =>
      cases x with
      | none => exact ih m (by rwa [tsUuids_cons_none] at hmem) hfresh
      | some t =>
          show (mlookup (regTargets a rest
            (bucketMod m t.uuid (fun b => sinsert b a))) u).getD [] =
            (mlookup m u).getD [] ++ [a]
          by_cases hu : u = t.uuid
          · subst hu
            have hb : (mlookup (bucketMod m t.uuid (fun b => sinsert b a))
                t.uuid).getD [] = (mlookup m t.uuid).getD [] ++ [a] := by
              rw [mlookup_bucketMod_self]
              simp only [Option.getD_some]
              exact sinsert_eq_append hfresh
            rw [regTargets_getD_saturated a rest _ t.uuid
              (by rw [hb]; exact ⟨a, by simp, structEq_refl a⟩), hb]
          · rw [tsUuids_cons_some, List.mem_cons] at hmem
            rcases hmem with heq | hmem
            · exact absurd heq hu
            · rw [ih _ hmem (by rwa [mlookup_bucketMod_other _ _ _ _ hu]),
                mlookup_bucketMod_other _ _ _ _ hu]

/-- The erase loop leaves buckets of non-target uuids alone. -/
theorem unregTargets_getD_not_mem (a : Atom) (ts : List (Option Atom))
    (m : List (Nat × List Atom)) (u : Nat) (h : u ∉ tsUuids ts) :
    (mlookup (unregTargets a ts m) u).getD [] = (mlookup m u).getD [] := by
  induction ts generalizing m with
  | nil => rfl
  | cons x rest ih =>
      cases x with
      | none => exact ih m (by rwa [tsUuids_cons_none] at h)
      | some t =>
          rw [tsUuids_cons_some, List.mem_cons] at h
          push_neg at h
          show (mlookup (unregTargets a rest
            (bucketMod m t.uuid (fun b => serase b a))) u).getD [] =
            (mlookup m u).getD []
          rw [ih _ h.2, mlookup_bucketMod_other _ _ _ _ h.1]

/-- The erase loop is a no-op on a bucket with no structurally equal
member. -/
theorem unregTargets_getD_nomatch (a : Atom) (ts : List (Option Atom))
    (m : List (Nat × List Atom)) (u : Nat)
    (h : ∀ x ∈ (mlookup m u).getD [], structEq x a = false) :
    (mlookup (unregTargets a ts m) u).getD [] = (mlookup m u).getD [] := by
  induction ts generalizing m with
  | nil => rfl
  | cons x rest ih =>
      cases x with
      | none => exact ih m h
      | some t =>
          show (mlookup (unregTargets a rest
            (bucketMod m t.uuid (fun b => serase b a))) u).getD [] =
            (mlookup m u).getD []
          by_cases hu : u = t.uuid
          · subst hu
            have hb : (mlookup (bucketMod m t.uuid (fun b => serase b a))
                t.uuid).getD [] = (mlookup m t.uuid).getD [] := by
              rw [mlookup_bucketMod_self]
              simp only [Option.getD_some]
              exact serase_eq_self h
            rw [ih _ (by rw [hb]; exact h), hb]
          · rw [ih _ (by rwa [mlookup_bucketMod_other _ _ _ _ hu]),
              mlookup_bucketMod_other _ _ _ _ hu]

/-- On a deduplicated bucket of a target uuid, the erase loop performs
exactly one structural erasure. -/
theorem unregTargets_getD_dedup (a : Atom) (ts : List (Option Atom))
    (m : List (Nat × List Atom)) (u : Nat)
    (hmem : u ∈ tsUuids ts)
    (hp : ((mlookup m u).getD []).Pairwise (fun x y => structEq x y = false)) :
    (mlookup (unregTargets a ts m) u).getD [] = serase ((mlookup m u).getD []) a := by
  induction ts generalizing m with
  | nil => cases hmem
  | cons x rest ih =>
      cases x with
      | none => exact ih m (by rwa [tsUuids_cons_none] at hmem) hp
      | some t =>
          show (mlookup (unregTargets a rest
            (bucketMod m t.uuid (fun b => serase b a))) u).getD [] =
            serase ((mlookup m u).getD []) a
          by_cases hu : u = t.uuid
          · subst hu
            have hb : (mlookup (bucketMod m t.uuid (fun b => serase b a))
                t.uuid).getD [] = serase ((mlookup m t.uuid).getD []) a := by
              rw [mlookup_bucketMod_self]
              simp only [Option.getD_some]
            have hno : ∀ x ∈ (mlookup (bucketMod m t.uuid (fun b => serase b a))
                t.uuid).getD [], structEq x a = false := by
              rw [hb]
              intro x hx
              have hany := any_serase_false (l := (mlookup m t.uuid).getD [])
                (a := a) hp
              rw [List.any_eq_false] at hany
              have := hany x hx
              simpa using this
            rw [unregTargets_getD_nomatch a rest _ t.uuid hno, hb]
          · rw [tsUuids_cons_some, List.mem_cons] at hmem
            rcases hmem with heq | hmem
            · exact absurd heq hu
            · rw [ih _ hmem (by rwa [mlookup_bucketMod_other _ _ _ _ hu]),
                mlookup_bucketMod_other _ _ _ _ hu]

/-- `add_atom` preserves the full index-consistency invariant, for an
arbitrary (even transient) argument handle. -/
theorem good_addAtom (s : AtomSpace) (h : Option Atom) (hg : Good s) :
    Good (addAtom h s).2 := by
  obtain ⟨hd, hkn, hbd, hA, hB⟩ := hg
  match h with
  | none => exact ⟨hd, hkn, hbd, hA, hB⟩
  | some a =>
    cases hf : sfind s.atoms a with
    | some c =>
        have hs : (addAtom (some a) s).2 = s := by simp [addAtom, hf]
        rw [hs]
        exact ⟨hd, hkn, hbd, hA, hB⟩
    | none =>
      have hfreshAll : ∀ x ∈ s.atoms, structEq x a = false := by
        unfold sfind at hf
        rw [List.find?_eq_none] at hf
        intro x hx
        have := hf x hx
        simpa using this
      have holdA : ∀ u : Nat, ∀ L ∈ (mlookup s.incoming u).getD [],
          L ∈ s.atoms ∧ L.isLink = true ∧ u ∈ targetUuids L := by
        intro u L hL
        cases hm : mlookup s.incoming u with
        | none => rw [hm] at hL; cases hL
        | some b =>
            rw [hm] at hL
            exact hA _ (mlookup_mem hm) L hL
      have holdbd : ∀ u : Nat, ((mlookup s.incoming u).getD []).Pairwise
          (fun x y => structEq x y = false) := by
        intro u
        cases hm : mlookup s.incoming u with
        | none => simp
        | some b => simpa using hbd _ (mlookup_mem hm)
      have hbfresh : ∀ u : Nat, ∀ x ∈ (mlookup s.incoming u).getD [],
          structEq x a = false := fun u x hx => hfreshAll x (holdA u x hx).1
      set inc2 := (if a.isLink then regTargets a a.out s.incoming else s.incoming)
        with hinc2
      have hkn2 : KeysNodup inc2 := by
        rw [hinc2]
        by_cases hlk : a.isLink = true
        · rw [if_pos hlk]
          exact keysNodup_regTargets a a.out hkn
        · rw [if_neg hlk]
          exact hkn
      have hbucket : ∀ u : Nat, (mlookup inc2 u).getD [] =
          if a.isLink = true ∧ u ∈ targetUuids a
          then (mlookup s.incoming u).getD [] ++ [a]
          else (mlookup s.incoming u).getD [] := by
        intro u
        by_cases hlk : a.isLink = true
        · rw [hinc2, if_pos hlk]
          by_cases hu : u ∈ targetUuids a
          · rw [if_pos ⟨hlk, hu⟩]
            exact regTargets_getD_fresh a a.out s.incoming u hu (hbfresh u)
          · rw [if_neg (fun hc => hu hc.2)]
            exact regTargets_getD_not_mem a a.out s.incoming u hu
        · rw [hinc2, if_neg hlk, if_neg (fun hc => hlk hc.1)]
      have hstate : (addAtom (some a) s).2 =
          { s with
            atoms := s.atoms ++ [a]
            byType := bucketMod s.byType a.ty (fun b => sinsert b a)
            byUuid := uuidSet s.byUuid a.uuid a
            incoming := inc2 } := by
        simp only [addAtom, hf, ← hinc2]
      have hdnew : Dedup
          { s with
            atoms := s.atoms ++ [a]
            byType := bucketMod s.byType a.ty (fun b => sinsert b a)
            byUuid := uuidSet s.byUuid a.uuid a
            incoming := inc2 } := by
        rw [← hstate]
        exact dedup_addAtom s (some a) hd
      rw [hstate]
      refine ⟨hdnew, hkn2, ?_, ?_, ?_⟩
      · rintro ⟨u, b⟩ hq
        have hq2 : (u, b) ∈ inc2 := hq
        have hlq : mlookup inc2 u = some b := mem_mlookup_of_nodup hkn2 hq2
        have hbval : b = (mlookup inc2 u).getD [] := by rw [hlq]; rfl
        show b.Pairwise (fun x y => structEq x y = false)
        rw [hbval, hbucket u]
        by_cases hcond : a.isLink = true ∧ u ∈ targetUuids a
        · rw [if_pos hcond, List.pairwise_append]
          refine ⟨holdbd u, List.pairwise_singleton _ _, ?_⟩
          intro x hx y hy
          rw [List.mem_singleton] at hy
          subst hy
          exact hbfresh u x hx
        · rw [if_neg hcond]
          exact holdbd u
      · rintro ⟨u, b⟩ hq L hL
        have hq2 : (u, b) ∈ inc2 := hq
        have hlq : mlookup inc2 u = some b := mem_mlookup_of_nodup hkn2 hq2
        have hbval : b = (mlookup inc2 u).getD [] := by rw [hlq]; rfl
        rw [hbval, hbucket u] at hL
        show L ∈ s.atoms ++ [a] ∧ L.isLink = true ∧ u ∈ targetUuids L
        by_cases hcond : a.isLink = true ∧ u ∈ targetUuids a
        · rw [if_pos hcond] at hL
          rcases List.mem_append.mp hL with hold | hLa
          · have hres := holdA u L hold
            exact ⟨List.mem_append_left _ hres.1, hres.2.1, hres.2.2⟩
          · rw [List.mem_singleton] at hLa
            subst hLa
            exact ⟨List.mem_append_right _ (List.mem_singleton_self L),
              hcond.1, hcond.2⟩
        · rw [if_neg hcond] at hL
          have hres := holdA u L hL
          exact ⟨List.mem_append_left _ hres.1, hres.2.1, hres.2.2⟩
      · intro L hL hlk u hu
        show L ∈ (mlookup inc2 u).getD []
        rw [hbucket u]
        have hLmem : L ∈ s.atoms ++ [a] := hL
        rcases List.mem_append.mp hLmem with hold | hLa
        · have hmem := hB L hold hlk u hu
          by_cases hcond : a.isLink = true ∧ u ∈ targetUuids a
          · rw [if_pos hcond]
            exact List.mem_append_left _ hmem
          · rw [if_neg hcond]
            exact hmem
        · rw [List.mem_singleton] at hLa
          subst hLa
          rw [if_pos ⟨hlk, hu⟩]
          exact List.mem_append_right _ (List.mem_singleton_self L)

/-- Two distinct members of the deduplicated primary set are never
structurally equal (in either order). -/
theorem dedup_pair_false {s : AtomSpace} (hd : Dedup s) {x y : Atom}
    (hx : x ∈ s.atoms) (hy : y ∈ s.atoms) (hne : x ≠ y) :
    structEq x y = false := by
  have hsymm : Symmetric (fun x y : Atom => structEq x y = false) := by
    intro p q hpq
    rw [structEq_symm]
    exact hpq
  exact hd.forall hsymm hx hy hne

/-- `remove_atom` preserves the full index-consistency invariant when
called with null, the canonical stored handle, or a structurally absent
handle. -/
theorem good_removeAtom (s : AtomSpace) (h : Option Atom) (hg : Good s)
    (hok : RemoveOk h s) : Good (removeAtom h s).2 := by
  obtain ⟨hd, hkn, hbd, hA, hB⟩ := hg
  match h with
  | none => exact ⟨hd, hkn, hbd, hA, hB⟩
  | some a =>
    rcases hok with hmem | habs
    swap
    · have hany : s.atoms.any (fun x => structEq x a) = false :=
        List.any_eq_false.mpr (fun x hx => by simp [habs x hx])
      have hs : (removeAtom (some a) s).2 = s := by
        simp only [removeAtom, hany, Bool.false_eq_true, if_false]
      rw [hs]
      exact ⟨hd, hkn, hbd, hA, hB⟩
    · have hany : s.atoms.any (fun x => structEq x a) = true :=
        List.any_eq_true.mpr ⟨a, hmem, structEq_refl a⟩
      have holdA : ∀ u : Nat, ∀ L ∈ (mlookup s.incoming u).getD [],
          L ∈ s.atoms ∧ L.isLink = true ∧ u ∈ targetUuids L := by
        intro u L hL
        cases hm : mlookup s.incoming u with
        | none => rw [hm] at hL; cases hL
        | some b =>
            rw [hm] at hL
            exact hA _ (mlookup_mem hm) L hL
      have holdbd : ∀ u : Nat, ((mlookup s.incoming u).getD []).Pairwise
          (fun x y => structEq x y = false) := by
        intro u
        cases hm : mlookup s.incoming u with
        | none => simp
        | some b => simpa using hbd _ (mlookup_mem hm)
      have hmemser : ∀ M : Atom, M ∈ serase s.atoms a ↔ (M ∈ s.atoms ∧ M ≠ a) :=
        mem_serase_pairwise hd hmem
      set inc2 := (if a.isLink then unregTargets a a.out s.incoming else s.incoming)
        with hinc2
      have hkn2 : KeysNodup inc2 := by
        rw [hinc2]
        by_cases hlk : a.isLink = true
        · rw [if_pos hlk]
          exact keysNodup_unregTargets a a.out hkn
        · rw [if_neg hlk]
          exact hkn
      have hbucket : ∀ u : Nat, (mlookup inc2 u).getD [] =
          if a.isLink = true ∧ u ∈ targetUuids a
          then serase ((mlookup s.incoming u).getD []) a
          else (mlookup s.incoming u).getD [] := by
        intro u
        by_cases hlk : a.isLink = true
        · rw [hinc2, if_pos hlk]
          by_cases hu : u ∈ targetUuids a
          · rw [if_pos ⟨hlk, hu⟩]
            exact unregTargets_getD_dedup a a.out s.incoming u hu (holdbd u)
          · rw [if_neg (fun hc => hu hc.2)]
            exact unregTargets_getD_not_mem a a.out s.incoming u hu
        · rw [hinc2, if_neg hlk, if_neg (fun hc => hlk hc.1)]
      have hstate : (removeAtom (some a) s).2 =
          { s with
            atoms := serase s.atoms a
            byType := bucketMod s.byType a.ty (fun b => serase b a)
            byUuid := s.byUuid.eraseP (fun p => p.1 == a.uuid)
            incoming := inc2 } := by
        simp only [removeAtom, hany, if_true, ← hinc2]
      have hdnew : Dedup
          { s with
            atoms := serase s.atoms a
            byType := bucketMod s.byType a.ty (fun b => serase b a)
            byUuid := s.byUuid.eraseP (fun p => p.1 == a.uuid)
            incoming := inc2 } := by
        rw [← hstate]
        exact dedup_removeAtom s (some a) hd
      rw [hstate]
      refine ⟨hdnew, hkn2, ?_, ?_, ?_⟩
      · rintro ⟨u, b⟩ hq
        have hq2 : (u, b) ∈ inc2 := hq
        have hlq : mlookup inc2 u = some b := mem_mlookup_of_nodup hkn2 hq2
        have hbval : b = (mlookup inc2 u).getD [] := by rw [hlq]; rfl
        show b.Pairwise (fun x y => structEq x y = false)
        rw [hbval, hbucket u]
        by_cases hcond : a.isLink = true ∧ u ∈ targetUuids a
        · rw [if_pos hcond]
          exact (holdbd u).sublist (List.eraseP_sublist _)
        · rw [if_neg hcond]
          exact holdbd u
      · rintro ⟨u, b⟩ hq L hL
        have hq2 : (u, b) ∈ inc2 := hq
        have hlq : mlookup inc2 u = some b := mem_mlookup_of_nodup hkn2 hq2
        have hbval : b = (mlookup inc2 u).getD [] := by rw [hlq]; rfl
        rw [hbval, hbucket u] at hL
        show L ∈ serase s.atoms a ∧ L.isLink = true ∧ u ∈ targetUuids L
        by_cases hcond : a.isLink = true ∧ u ∈ targetUuids a
        · rw [if_pos hcond] at hL
          have hLold : L ∈ (mlookup s.incoming u).getD [] :=
            (List.eraseP_sublist _).subset hL
          have hres := holdA u L hLold
          have hLa : structEq L a = false := by
            have hser := any_serase_false (l := (mlookup s.incoming u).getD [])
              (a := a) (holdbd u)
            rw [List.any_eq_false] at hser
            have := hser L hL
            simpa using this
          have hLne : L ≠ a := by
            rintro rfl
            rw [structEq_refl L] at hLa
            cases hLa
          exact ⟨(hmemser L).mpr ⟨hres.1, hLne⟩, hres.2.1, hres.2.2⟩
        · rw [if_neg hcond] at hL
          have hres := holdA u L hL
          have hLne : L ≠ a := by
            rintro rfl
            exact hcond ⟨hres.2.1, hres.2.2⟩
          exact ⟨(hmemser L).mpr ⟨hres.1, hLne⟩, hres.2.1, hres.2.2⟩
      · intro L hL hlk u hu
        have hLm : L ∈ serase s.atoms a := hL
        obtain ⟨hLold, hLne⟩ := (hmemser L).mp hLm
        have hmemb := hB L hLold hlk u hu
        have hLa : structEq L a = false := dedup_pair_false hd hLold hmem hLne
        show L ∈ (mlookup inc2 u).getD []
        rw [hbucket u]
        by_cases hcond : a.isLink = true ∧ u ∈ targetUuids a
        · rw [if_pos hcond]
          exact mem_eraseP_of_p_false hmemb hLa
        · rw [if_neg hcond]
          exact hmemb

/-- C1 counterexample: the structural incoming-set invariant fails after
removing a referenced node and re-adding a structurally equal one.
Starting from the empty store: `add_node` of `ConceptNode "a"` (canonical
uuid 1), `add_link` of a link referring to it (uuid 2), `remove_atom` of
the node, then `add_node` of a structurally equal node again (fresh uuid
3).  Now the re-added node and the link are both in the store and the
node occurs structurally (at least once) in the link's outgoing
sequence, yet `get_incoming` of the re-added node is empty — the
incoming index is keyed by uuid and the stale bucket lives under the
dead uuid 1. -/
theorem c1_counterexample :
    containsAtom (some (Atom.node CONCEPT_NODE 3 ['a']))
      (addNode CONCEPT_NODE ['a']
      (removeAtom (some (Atom.node CONCEPT_NODE 1 ['a']))
        (addLink INHERITANCE_LINK [some (Atom.node CONCEPT_NODE 1 ['a'])]
          (addNode CONCEPT_NODE ['a'] emptySpace).2).2).2).2 = true ∧
    containsAtom (some (Atom.link INHERITANCE_LINK 2 [some (Atom.node CONCEPT_NODE 1 ['a'])]))
      (addNode CONCEPT_NODE ['a']
      (removeAtom (some (Atom.node CONCEPT_NODE 1 ['a']))
        (addLink INHERITANCE_LINK [some (Atom.node CONCEPT_NODE 1 ['a'])]
          (addNode CONCEPT_NODE ['a'] emptySpace).2).2).2).2 = true ∧
    List.any ((Atom.link INHERITANCE_LINK 2 [some (Atom.node CONCEPT_NODE 1 ['a'])])).out
      (fun h => structEqH h (some (Atom.node CONCEPT_NODE 3 ['a']))) = true ∧
    getIncoming (some (Atom.node CONCEPT_NODE 3 ['a']))
      (addNode CONCEPT_NODE ['a']
      (removeAtom (some (Atom.node CONCEPT_NODE 1 ['a']))
        (addLink INHERITANCE_LINK [some (Atom.node CONCEPT_NODE 1 ['a'])]
          (addNode CONCEPT_NODE ['a'] emptySpace).2).2).2).2 = [] := by
  decide

/-- C1 (amended): the incoming-set invariant holds with occurrence read
through the stored handle's uuid: in every store reachable by
`add_atom`, `add_node`, `add_link` and `remove_atom` (the latter called
with null, a canonical stored handle, or an absent one — `RemoveOk`), a
link L is in `get_incoming(X)` of a stored atom X iff L is stored, is a
link, and X's uuid is among the uuids of L's non-null outgoing targets.
The invariant `Good` holds of the empty store and is preserved by every
operation, and in any `Good` store the characterization holds.  (The
structural reading of occurrence fails only when a referenced atom has
been removed and a structurally equal one re-added, as
`c1_counterexample` shows; until then the two readings coincide.) -/
theorem c1_amended_incoming_invariant :
    Good emptySpace ∧
    (∀ (s : AtomSpace) (h : Option Atom), Good s → Good (addAtom h s).2) ∧
    (∀ (s : AtomSpace) (t : Nat) (n : List Char), Good s → Good (addNode t n s).2) ∧
    (∀ (s : AtomSpace) (t : Nat) (o : List (Option Atom)), Good s →
      Good (addLink t o s).2) ∧
    (∀ (s : AtomSpace) (h : Option Atom), Good s → RemoveOk h s →
      Good (removeAtom h s).2) ∧
    (∀ (s : AtomSpace) (X L : Atom), Good s → X ∈ s.atoms →
      (L ∈ getIncoming (some X) s ↔
        (L ∈ s.atoms ∧ L.isLink = true ∧ X.uuid ∈ targetUuids L))) := by
  refine ⟨by decide, good_addAtom, ?_, ?_, good_removeAtom, ?_⟩
  · intro s t n hg
    exact good_addAtom { s with nextUuid := s.nextUuid + 1 }
      (some (.node t s.nextUuid n)) hg
  · intro s t o hg
    exact good_addAtom { s with nextUuid := s.nextUuid + 1 }
      (some (.link t s.nextUuid o)) hg
  · intro s X L hg hX
    obtain ⟨hd, hkn, hbd, hA, hB⟩ := hg
    constructor
    · intro hL
      simp only [getIncoming] at hL
      cases hm : mlookup s.incoming X.uuid with
      | none => rw [hm] at hL; cases hL
      | some b =>
          rw [hm] at hL
          exact hA _ (mlookup_mem hm) L hL
    · rintro ⟨hLmem, hlk, hu⟩
      exact hB L hLmem hlk X.uuid hu

/-- Witness for C1's amended invariant: the single-link Animal store. -/
theorem c1_witness :
    (Atom.link INHERITANCE_LINK 5 [some dogN, some animalN]) ∈
        getIncoming (some animalN) (withInheritance [dogN]) ↔
      ((Atom.link INHERITANCE_LINK 5 [some dogN, some animalN]) ∈ (withInheritance [dogN]).atoms ∧
       ((Atom.link INHERITANCE_LINK 5 [some dogN, some animalN])).isLink = true ∧
       animalN.uuid ∈ targetUuids (Atom.link INHERITANCE_LINK 5 [some dogN, some animalN])) :=
  c1_amended_incoming_invariant.2.2.2.2.2 (withInheritance [dogN]) animalN
    (Atom.link INHERITANCE_LINK 5 [some dogN, some animalN]) (by decide) (by decide)

end GncOpencog
